import Mathlib

/-!
Shallow embedding of the renn container library:
src/Containers/DynamicArray.hpp, src/Containers/List.hpp and
src/Containers/HashTable/HashTable.hpp.

Modelling conventions:
* size_t values are modelled as Nat; no operation below brings a count
  anywhere near 2^64, so wrap-around never matters.
* The float constant MAX_LOAD_FACTOR = 0.8f is modelled by exact rational
  arithmetic: static_cast<size_t>(n * 0.8f) is written (4 * n) / 5 and
  std::ceil(n / 0.8f) is written (5 * n + 3) / 4; these agree with the
  float computations for every size the container can reach.
* Heap node pointers are modelled as stable integer ids; the backing
  intrusive list is the ordered list of (id, node) pairs, and a list
  iterator is a cursor: the sentinel (end), a node id, or the nullptr of a
  default-constructed iterator.
* Operations that the C++ source completes by throwing, or by reading
  out-of-bounds, freed, or null memory (undefined behaviour), return an
  Except value with a distinct observable error for each such outcome.
-/

namespace Renn

deriving instance DecidableEq for Except

/-- Keys and mapped values: the claims are checked at Key = Value = Nat
with a caller-supplied hash function, matching the class template
parameters with std::equal_to as KeyEqual. -/
abbrev Key := Nat

abbrev Val := Nat

/-- Observable failure outcomes.  The first three correspond to thrown
std::out_of_range exceptions; the last three are points where the source
performs an undefined memory access. -/
inductive Err where
  | keyNotFound
  | emptyContainer
  | indexOutOfRange
  | invalidIterator
  | oobRead
  | nullDeref
  | useAfterFree
deriving DecidableEq, Repr

/-- HashTable::HashNode (HashTable.hpp lines 24-41): key, mapped value and
the hash cached at insertion time. -/
structure HashNode where
  key : Key
  value : Val
  cached_hash : Nat
deriving DecidableEq, Repr

/-- A List iterator as stored in the bucket array: the list sentinel
(elements_.end()), a pointer to a live node (modelled by its id), or the
nullptr held by a default-constructed iterator (List.hpp line 63). -/
inductive Cur where
  | end_
  | node (id : Nat)
  | nullIt
deriving DecidableEq, Repr

/-- The hash table state (HashTable.hpp lines 607-619).  elements is the
backing intrusive list in list order; hash_table is the DynamicArray of
bucket head iterators; next_id is the model's allocator counter for fresh
node ids. -/
structure HashTable where
  elements : List (Nat × HashNode)
  hash_table : List Cur
  size_ : Nat
  bucket_count_ : Nat
  rehash_threshold_ : Nat
  next_id : Nat
deriving DecidableEq, Repr

def MIN_BUCKET_COUNT : Nat := 7

/-- Dereference of a node id: Some node while the node is live, none once
it has been erased (reading it in C++ would be use-after-free). -/
def lookupNode (elems : List (Nat × HashNode)) (i : Nat) : Option HashNode :=
  (elems.find? (fun p => p.1 == i)).map Prod.snd

/-- The tail of the backing list starting at the node with id i: walking
successor pointers from that node visits exactly this suffix. -/
def suffixFrom (elems : List (Nat × HashNode)) (i : Nat) : List (Nat × HashNode) :=
  elems.dropWhile (fun p => p.1 != i)

/-- Whether a stored node belongs to bucket b under bucket count bc:
cached_hash_ % bucket_count_ == b. -/
def inBucketB (bc b : Nat) (p : Nat × HashNode) : Bool :=
  p.2.cached_hash % bc == b

/-- The bucket scan loop shared by find (lines 444-451) and the duplicate
check in emplace (lines 326-333): starting from a cursor's suffix, walk
while the node still belongs to bucket b, returning the first node whose
key compares equal, else the table end. -/
def scanFind (bc b : Nat) (k : Key) : List (Nat × HashNode) → Cur
  | [] => Cur.end_
  | p :: rest =>
    if p.2.cached_hash % bc == b then
      if p.2.key == k then Cur.node p.1 else scanFind bc b k rest
    else Cur.end_

/-- Length of the contiguous run of bucket-b nodes at the head of a
suffix: the distance walked by the insertion-position loop
(lines 353-356). -/
def runLen (bc b : Nat) (suf : List (Nat × HashNode)) : Nat :=
  (suf.takeWhile (inBucketB bc b)).length

/-- Position of node id i in the backing list (the list length when i is
not present). -/
def idxOfId (elems : List (Nat × HashNode)) (i : Nat) : Nat :=
  (elems.takeWhile (fun p => p.1 != i)).length

/-- hash_table_[b]: DynamicArray::operator[] is unchecked (lines 153-159
of DynamicArray.hpp), so an index beyond the array size is an undefined
read. -/
def bucketRead (st : HashTable) (b : Nat) : Except Err Cur :=
  match st.hash_table.get? b with
  | some c => .ok c
  | none => .error .oobRead

/-- Turn a bucket head cursor into the list suffix its scan will walk.
Dereferencing a null iterator or an erased node (as the loop condition
current->cached_hash_ does) is an undefined read. -/
def curSuffix (st : HashTable) : Cur → Except Err (List (Nat × HashNode))
  | Cur.end_ => .ok []
  | Cur.nullIt => .error .nullDeref
  | Cur.node i =>
    if st.elements.any (fun p => p.1 == i) then .ok (suffixFrom st.elements i)
    else .error .useAfterFree

/-- HashTable::find (lines 440-452): hash, reduce to a bucket, scan that
bucket's run from the recorded head. -/
def find (hash : Key → Nat) (st : HashTable) (k : Key) : Except Err Cur := do
  let b := hash k % st.bucket_count_
  let slot ← bucketRead st b
  let suf ← curSuffix st slot
  pure (scanFind st.bucket_count_ b k suf)

/-- The trial-division loop of is_prime (lines 583-587), checking the
divisors 5, 11, 17, ... and their +2 companions while i * i <= n.  The
loop is given structural fuel so that it computes by kernel reduction;
is_prime passes fuel n + 1, far beyond the at most sqrt(n)/6 + 1
iterations the guard allows, and the correctness lemmas below prove the
exhaustion branch unreachable. -/
def is_prime_loop (n : Nat) : Nat → Nat → Bool
  | 0, _ => true
  | fuel + 1, i =>
    if i * i ≤ n then
      if n % i == 0 || n % (i + 2) == 0 then false
      else is_prime_loop n fuel (i + 6)
    else true

/-- HashTable::is_prime (lines 575-589). -/
def is_prime (n : Nat) : Bool :=
  if n ≤ 1 then false
  else if n ≤ 3 then true
  else if n % 2 == 0 || n % 3 == 0 then false
  else is_prime_loop n (n + 1) 5

/-- The while loop of next_prime (lines 598-603), given explicit fuel;
next_prime supplies fuel n + 2, which by Bertrand's postulate always
suffices to reach the next prime. -/
def next_prime_loop : Nat → Nat → Nat
  | 0, p => p
  | fuel + 1, p => if is_prime (p + 1) then p + 1 else next_prime_loop fuel (p + 1)

/-- HashTable::next_prime (lines 591-605): the smallest prime strictly
greater than n (2 when n <= 2). -/
def next_prime (n : Nat) : Nat :=
  if n ≤ 2 then 2 else next_prime_loop (n + 2) n

/-- The redistribution loop of rehash (lines 160-168): for each node, in
list order, record it as the head of its new bucket only when that slot
still holds the end iterator.  The index is always below count, so the
getD default is never consulted. -/
def rehashFold (count : Nat) (tbl : List Cur) (elems : List (Nat × HashNode)) : List Cur :=
  elems.foldl (fun t p =>
    let idx := p.2.cached_hash % count
    if t.getD idx Cur.end_ = Cur.end_ then t.set idx (Cur.node p.1) else t) tbl

/-- HashTable::rehash (lines 146-180).  count is clamped to the minimum
bucket count and to ceil(size / max_load_factor); equality with the current
bucket count is an early return.  The backing list is untouched: only
first-seen heads are recorded in a fresh array. -/
def rehash (st : HashTable) (count0 : Nat) : HashTable :=
  let count := max (max count0 MIN_BUCKET_COUNT) ((5 * st.size_ + 3) / 4)
  if count = st.bucket_count_ then st
  else
    { st with
      hash_table := rehashFold count (List.replicate count Cur.end_) st.elements
      bucket_count_ := count
      rehash_threshold_ := (4 * count) / 5 }

/-- The insertion phase of HashTable::emplace (lines 347-367), entered
after the duplicate check missed and any load-factor rehash has run:
locate the end of the bucket's contiguous run (lines 353-356), link the
new node there, and update the head slot only when the bucket was empty
(lines 362-364).  st1 is the table after the optional rehash, hash_value
the hash cached in the new node. -/
def emplaceNew (st1 : HashTable) (hash_value : Nat) (k : Key) (v : Val) :
    Except Err (HashTable × Cur × Bool) := do
  let bidx := hash_value % st1.bucket_count_
  let nd : HashNode := ⟨k, v, hash_value⟩
  let slot1 ← bucketRead st1 bidx
  let suf1 ← curSuffix st1 slot1
  let pos := match slot1 with
    | Cur.node i => idxOfId st1.elements i + runLen st1.bucket_count_ bidx suf1
    | _ => st1.elements.length
  let newElems := st1.elements.take pos ++ (st1.next_id, nd) :: st1.elements.drop pos
  let newTable := if slot1 = Cur.end_
                  then st1.hash_table.set bidx (Cur.node st1.next_id)
                  else st1.hash_table
  pure ({ st1 with
            elements := newElems
            hash_table := newTable
            size_ := st1.size_ + 1
            next_id := st1.next_id + 1 },
        Cur.node st1.next_id, true)

/-- HashTable::emplace (lines 312-376).  Duplicate check over the bucket
run; on miss, a possible load-factor rehash with the bucket index
recomputed against the new bucket count, then the insertion phase. -/
def emplace (hash : Key → Nat) (st : HashTable) (k : Key) (v : Val) :
    Except Err (HashTable × Cur × Bool) := do
  let hash_value := hash k
  let bucket_index := hash_value % st.bucket_count_
  let slot ← bucketRead st bucket_index
  let suf ← curSuffix st slot
  match scanFind st.bucket_count_ bucket_index k suf with
  | Cur.node i => pure (st, Cur.node i, false)
  | _ =>
    let st1 := if st.size_ + 1 > st.rehash_threshold_
               then rehash st (next_prime (st.bucket_count_ * 2)) else st
    emplaceNew st1 hash_value k v

/-- HashTable::erase(iterator) (lines 387-408): end is a no-op; otherwise
read the node's cached hash, fix up the bucket head if the node is the
recorded head (advance to the successor when it is still in the same
bucket, else mark the bucket empty), unlink the node, decrement size. -/
def eraseIt (st : HashTable) (c : Cur) : Except Err HashTable :=
  match c with
  | Cur.end_ => .ok st
  | Cur.nullIt => .error .nullDeref
  | Cur.node i =>
    match lookupNode st.elements i with
    | none => .error .useAfterFree
    | some n =>
      let b := n.cached_hash % st.bucket_count_
      match st.hash_table.get? b with
      | none => .error .oobRead
      | some slot =>
        let newSlot := match suffixFrom st.elements i with
          | _ :: q :: _ =>
            if q.2.cached_hash % st.bucket_count_ == b then Cur.node q.1 else Cur.end_
          | _ => Cur.end_
        let tbl := if slot = Cur.node i then st.hash_table.set b newSlot else st.hash_table
        .ok { st with
              elements := st.elements.eraseP (fun p => p.1 == i)
              hash_table := tbl
              size_ := st.size_ - 1 }

/-- HashTable::erase(const Key&) (lines 410-416): find, then erase the
cursor when it is not end. -/
def eraseKey (hash : Key → Nat) (st : HashTable) (k : Key) : Except Err HashTable := do
  let c ← find hash st k
  match c with
  | Cur.end_ => pure st
  | c => eraseIt st c

/-- HashTable::clear (lines 182-188). -/
def clear (st : HashTable) : HashTable :=
  { st with
    elements := []
    hash_table := List.replicate MIN_BUCKET_COUNT Cur.end_
    size_ := 0
    bucket_count_ := MIN_BUCKET_COUNT
    rehash_threshold_ := (4 * MIN_BUCKET_COUNT) / 5 }

/-- HashTable::reserve (lines 288-295).  DynamicArray::resize grows the
array with default-constructed ListIterators, whose node_ pointer is
nullptr (List.hpp line 63), not elements_.end(); then rehash(sz) is called
after bucket_count_ has already been set to sz, so when
max(sz, 7, ceil(size/0.8)) = sz the rehash early-returns and the new null
slots survive. -/
def reserve (st : HashTable) (sz : Nat) : HashTable :=
  if st.hash_table.length < sz then
    let grown := { st with
      hash_table := st.hash_table ++ List.replicate (sz - st.hash_table.length) Cur.nullIt
      bucket_count_ := sz
      rehash_threshold_ := (4 * sz) / 5 }
    rehash grown sz
  else st

/-- HashTable move constructor (lines 233-245): the target steals every
field (including size_); the source's list is left empty, its DynamicArray
is left in the moved-from state data_ = nullptr, size 0 (DynamicArray.hpp
lines 69-73) - the bucket array is never rebuilt - and its counters are
reset to the minimum bucket count. -/
def moveCtor (st : HashTable) : HashTable × HashTable :=
  (st,
   { elements := []
     hash_table := []
     size_ := 0
     bucket_count_ := MIN_BUCKET_COUNT
     rehash_threshold_ := (4 * MIN_BUCKET_COUNT) / 5
     next_id := 0 })

/-- HashTable move assignment (lines 213-231): the target takes the
source's array, list, bucket count and threshold, but size_ is never
assigned, so the target keeps its old size_.  The source is cleared and
its array resized to MIN_BUCKET_COUNT slots, which resize fills with
default-constructed (nullptr) iterators. -/
def moveAssign (target source : HashTable) : HashTable × HashTable :=
  ({ target with
     hash_table := source.hash_table
     elements := source.elements
     bucket_count_ := source.bucket_count_
     rehash_threshold_ := source.rehash_threshold_
     next_id := source.next_id },
   { elements := []
     hash_table := List.replicate MIN_BUCKET_COUNT Cur.nullIt
     size_ := 0
     bucket_count_ := MIN_BUCKET_COUNT
     rehash_threshold_ := (4 * MIN_BUCKET_COUNT) / 5
     next_id := 0 })

/-- HashTable::at (lines 489-496): find, throw std::out_of_range on end,
else return the stored value.  No state is produced: the operation never
mutates. -/
def atKey (hash : Key → Nat) (st : HashTable) (k : Key) : Except Err Val := do
  let c ← find hash st k
  match c with
  | Cur.end_ => .error .keyNotFound
  | Cur.node i =>
    match lookupNode st.elements i with
    | some n => pure n.value
    | none => .error .useAfterFree
  | Cur.nullIt => .error .nullDeref

/-- const HashTable::operator[] (lines 480-487): identical shape to at -
find, throw on end, else return the stored value, never mutating. -/
def getConst (hash : Key → Nat) (st : HashTable) (k : Key) : Except Err Val := do
  let c ← find hash st k
  match c with
  | Cur.end_ => .error .keyNotFound
  | Cur.node i =>
    match lookupNode st.elements i with
    | some n => pure n.value
    | none => .error .useAfterFree
  | Cur.nullIt => .error .nullDeref

/-- HashTable::bucket_size (lines 528-544): bounds-checked bucket index,
then the length of the contiguous run from the recorded head. -/
def bucket_size (st : HashTable) (b : Nat) : Except Err Nat :=
  if st.bucket_count_ ≤ b then .error .indexOutOfRange
  else do
    let slot ← bucketRead st b
    let suf ← curSuffix st slot
    pure (runLen st.bucket_count_ b suf)

/-- HashTable::load_factor (line 520), with the float quotient modelled as
an exact rational. -/
def load_factor (st : HashTable) : ℚ :=
  (st.size_ : ℚ) / (st.bucket_count_ : ℚ)

/-- The keys currently stored, in backing-list order. -/
def keysOf (st : HashTable) : List Key :=
  st.elements.map (fun p => p.2.key)

/-- The node ids currently allocated, in backing-list order. -/
def idsOf (st : HashTable) : List Nat :=
  st.elements.map Prod.fst

/-- Structural sanity: positive bucket count covered by the array,
distinct node ids, and ids below the allocator counter. -/
def Sane (st : HashTable) : Prop :=
  0 < st.bucket_count_ ∧
  st.bucket_count_ ≤ st.hash_table.length ∧
  (idsOf st).Nodup ∧
  (∀ p ∈ st.elements, p.1 < st.next_id)

instance (st : HashTable) : Decidable (Sane st) := by
  unfold Sane; infer_instance

/-- Every bucket head below the bucket count is either the end sentinel
or a live node that belongs to that bucket.  Every operation except the
degenerate reserve/move paths preserves this. -/
def HeadsProper (st : HashTable) : Prop :=
  ∀ b, b < st.bucket_count_ →
    st.hash_table.getD b Cur.end_ = Cur.end_ ∨
    ∃ i n, st.hash_table.getD b Cur.end_ = Cur.node i ∧ (i, n) ∈ st.elements ∧
      n.cached_hash % st.bucket_count_ = b

/-- The first node of bucket b in list order, as a cursor. -/
def firstOfBucket (elems : List (Nat × HashNode)) (bc b : Nat) : Cur :=
  match elems.find? (inBucketB bc b) with
  | some p => Cur.node p.1
  | none => Cur.end_

/-- Full well-formedness, the invariant the specification asserts: sanity,
array length equal to the bucket count, cached hashes consistent with the
hash function, distinct keys, every bucket head recording the first node
of its bucket, and each bucket's nodes forming one contiguous run
(its filter is an infix of the backing list). -/
def WF (hash : Key → Nat) (st : HashTable) : Prop :=
  Sane st ∧
  st.hash_table.length = st.bucket_count_ ∧
  (∀ p ∈ st.elements, p.2.cached_hash = hash p.2.key) ∧
  (keysOf st).Nodup ∧
  (∀ b, b < st.bucket_count_ →
    st.hash_table.get? b = some (firstOfBucket st.elements st.bucket_count_ b)) ∧
  (∀ b, b < st.bucket_count_ →
    st.elements.filter (inBucketB st.bucket_count_ b) <:+: st.elements)

instance (hash : Key → Nat) (st : HashTable) : Decidable (WF hash st) := by
  unfold WF; infer_instance

/-- The identity hash used for the concrete test states (legal for the
template: any Key -> integer function). -/
def idHash : Key → Nat := fun k => k

/-- The default-constructed table (lines 190-195): 7 end-iterator buckets,
threshold static_cast<size_t>(7 * 0.8f) = 5. -/
def emptyTable : HashTable :=
  { elements := []
    hash_table := List.replicate MIN_BUCKET_COUNT Cur.end_
    size_ := 0
    bucket_count_ := MIN_BUCKET_COUNT
    rehash_threshold_ := (4 * MIN_BUCKET_COUNT) / 5
    next_id := 0 }

/-- Convenience builder for concrete states: the table produced by a
successful emplace (unchanged on error; the theorems below always also
record that the call succeeded). -/
def emplaceD (hash : Key → Nat) (st : HashTable) (k : Key) (v : Val) : HashTable :=
  match emplace hash st k v with
  | .ok (st', _, _) => st'
  | .error _ => st

/-- Keys 0, 5, 17 inserted with the identity hash into a fresh table:
under bucket count 7 they occupy buckets 0, 5, 3. -/
def stA : HashTable :=
  emplaceD idHash (emplaceD idHash (emplaceD idHash emptyTable 0 0) 5 50) 17 170

/-- stA after rehash(17): keys 0 and 17 now both belong to bucket 0 but
remain separated by key 5 in the backing list, so bucket 0 is no longer
contiguous and key 17 is no longer reachable from its bucket head. -/
def stBroken : HashTable := rehash stA 17

/-- A one-element table holding key 1 with value 10. -/
def stOne : HashTable := emplaceD idHash emptyTable 1 10

/-! ### DynamicArray (src/Containers/DynamicArray.hpp)

Only the fragment the claims need: the element storage (the list of
currently constructed elements, in index order, whose length is size_)
together with the size_ and capacity_ counters. -/

structure DynArr (A : Type) where
  data : List A
  size_ : Nat
  capacity_ : Nat
deriving DecidableEq, Repr

/-- DynamicArray::pop_back (lines 327-332): only when size_ > 0, decrement
size_ and destroy the last constructed element; otherwise nothing happens
and nothing is signalled. -/
def DynArr.pop_back {A : Type} (a : DynArr A) : DynArr A :=
  if 0 < a.size_ then
    { a with size_ := a.size_ - 1, data := a.data.take (a.size_ - 1) }
  else a

/-! ### Intrusive list (src/Containers/List.hpp)

The model for the iterator-invalidation claims: a list iterator holds a
node pointer (sentinel, live node id, or nullptr) plus the is_valid_ flag
(line 54).  All List member functions take iterators BY VALUE, so
Iterator::invalidate() inside erase/emplace (lines 304, 326) acts on the
callee's copy; the caller's iterator object is never written to, exactly
as in Lean's value semantics. -/

inductive LPtr where
  | sentinel
  | node (id : Nat)
  | null
deriving DecidableEq, Repr

structure LIter where
  ptr : LPtr
  is_valid : Bool
deriving DecidableEq, Repr

structure MList (A : Type) where
  elems : List (Nat × A)
  fresh : Nat
deriving DecidableEq, Repr

/-- List::end (line 144): an always-valid iterator at the sentinel. -/
def MList.endIt : LIter := ⟨LPtr.sentinel, true⟩

/-- List::begin (line 140): head_->next, the sentinel itself when the list
is empty. -/
def MList.beginIt {A : Type} (l : MList A) : LIter :=
  match l.elems with
  | [] => MList.endIt
  | (i, _) :: _ => ⟨LPtr.node i, true⟩

/-- List::Iterator::operator* (lines 67-72): an iterator whose is_valid_
flag is false fails with InvalidIterator (the runtime_error thrown at line
69); otherwise the node pointer is dereferenced unchecked - on the
sentinel, on nullptr, or on a freed node that read is undefined. -/
def MList.deref {A : Type} (l : MList A) (it : LIter) : Except Err A :=
  if it.is_valid = false then .error .invalidIterator
  else
    match it.ptr with
    | LPtr.node i =>
      match (l.elems.find? (fun p => p.1 == i)).map Prod.snd with
      | some v => .ok v
      | none => .error .useAfterFree
    | _ => .error .useAfterFree

/-- List::erase (lines 294-311): end is a no-op returning end; otherwise
unlink and destroy the node at position, returning an iterator to its
former successor.  position.invalidate() at line 304 marks only the local
parameter copy.  Calling erase with a dangling or null iterator follows
the node's prev/next pointers, an undefined access. -/
def MList.eraseAt {A : Type} (l : MList A) (position : LIter) :
    Except Err (MList A × LIter) :=
  match position.ptr with
  | LPtr.sentinel => .ok (l, MList.endIt)
  | LPtr.null => .error .nullDeref
  | LPtr.node i =>
    if l.elems.any (fun p => p.1 == i) then
      let nxt : LIter :=
        match l.elems.dropWhile (fun p => p.1 != i) with
        | _ :: (j, _) :: _ => ⟨LPtr.node j, true⟩
        | _ => MList.endIt
      .ok (⟨l.elems.eraseP (fun p => p.1 == i), l.fresh⟩, nxt)
    else .error .useAfterFree

/-- List::emplace (lines 313-337): construct a node immediately before
position and return an iterator to it.  position.invalidate() at line 326
again touches only the local copy.  Inserting before a dangling or null
iterator follows bad pointers. -/
def MList.emplaceAt {A : Type} (l : MList A) (position : LIter) (v : A) :
    Except Err (MList A × LIter) :=
  match position.ptr with
  | LPtr.sentinel =>
    .ok (⟨l.elems ++ [(l.fresh, v)], l.fresh + 1⟩, ⟨LPtr.node l.fresh, true⟩)
  | LPtr.null => .error .nullDeref
  | LPtr.node i =>
    if l.elems.any (fun p => p.1 == i) then
      let pos := (l.elems.takeWhile (fun p => p.1 != i)).length
      .ok (⟨l.elems.take pos ++ (l.fresh, v) :: l.elems.drop pos, l.fresh + 1⟩,
           ⟨LPtr.node l.fresh, true⟩)
    else .error .useAfterFree

/-- The two-element list [(0, 10), (1, 20)] built by push_back. -/
def mlTwo : MList Nat := ⟨[(0, 10), (1, 20)], 2⟩

/-- The bucket head cursor actually stored in slot b (end for a slot that
does not exist; reasoning lemmas only use it below the array length). -/
def slotOf (st : HashTable) (b : Nat) : Cur :=
  st.hash_table.getD b Cur.end_

/-- The list suffix the scan starting at slot b walks. -/
def sufOf (st : HashTable) (b : Nat) : List (Nat × HashNode) :=
  match slotOf st b with
  | Cur.node i => suffixFrom st.elements i
  | _ => []

/-- Keys 0..13 inserted in order: a fourteen-element table. -/
def st14 : HashTable :=
  (List.range 14).foldl (fun s k => emplaceD idHash s k k) emptyTable

/-- The move-assignment target of st14 := move(emptyTable): because move
assignment never assigns size_, this reachable state has size_ = 14 while
its backing list is empty and its bucket bookkeeping is the source's. -/
def stC8 : HashTable := (moveAssign st14 emptyTable).1

/-- Keys 0..4 inserted in order: a well-formed table at its rehash
threshold (size 5, bucket count 7, threshold 5), so the next insertion
triggers load-factor growth. -/
def st5 : HashTable :=
  (List.range 5).foldl (fun s k => emplaceD idHash s k k) emptyTable

/-- q is the smallest prime not less than m. -/
def IsLeastPrimeGE (m q : Nat) : Prop :=
  Nat.Prime q ∧ m ≤ q ∧ ∀ p, Nat.Prime p → m ≤ p → q ≤ p

/-! ## Theorems -/

/-- Claim C1 (violated by the code): rehash records only the first-seen
node per new bucket and never regroups the backing list, so the
bucket-contiguity invariant fails in reachable states.  Concretely: stA
(keys 0, 5, 17 under the identity hash) is fully well-formed; after
rehash(17) bucket 0 owns the two nodes with keys 0 and 17, but the run
from its recorded head has length 1 (key 5 sits between them), and key 17
is no longer reachable from its bucket head at all. -/
theorem C1_rehash_breaks_bucket_contiguity :
    WF idHash stA ∧
    stBroken = rehash stA 17 ∧
    (stBroken.elements.filter (inBucketB stBroken.bucket_count_ 0)).length = 2 ∧
    bucket_size stBroken 0 = .ok 1 ∧
    17 ∈ keysOf stBroken ∧
    find idHash stBroken 17 = .ok Cur.end_ := by
  refine ⟨by decide, rfl, by decide, by decide, by decide, by decide⟩

/-- Claim C2 (violated by the code): move assignment (lines 213-231)
copies every field except size_, so after moving the one-element table
stOne into an empty table the target reports size 0 while its backing
list holds one node. -/
theorem C2_move_assignment_drops_size :
    (moveAssign emptyTable stOne).1.size_ = 0 ∧
    (moveAssign emptyTable stOne).1.elements.length = 1 ∧
    (moveAssign emptyTable stOne).1.size_ ≠
      (moveAssign emptyTable stOne).1.elements.length := by decide

/-- Claim C5 (violated by the code): List::erase takes its iterator by
value, so position.invalidate() (line 304) marks only the callee's copy.
The caller's cursor keeps is_valid_ = true and its dereference after the
erase reads the freed node (undefined behaviour) instead of failing with
InvalidIterator.  Cursors on other nodes do remain valid across that
erase and across an insertion elsewhere. -/
theorem C5_erase_invalidation_lost_on_copy :
    MList.eraseAt mlTwo ⟨LPtr.node 0, true⟩ =
      .ok (⟨[(1, 20)], 2⟩, ⟨LPtr.node 1, true⟩) ∧
    MList.deref (⟨[(1, 20)], 2⟩ : MList Nat) ⟨LPtr.node 0, true⟩ =
      .error .useAfterFree ∧
    MList.deref (⟨[(1, 20)], 2⟩ : MList Nat) ⟨LPtr.node 1, true⟩ = .ok 20 ∧
    MList.emplaceAt (⟨[(1, 20)], 2⟩ : MList Nat) MList.endIt 30 =
      .ok (⟨[(1, 20), (2, 30)], 3⟩, ⟨LPtr.node 2, true⟩) ∧
    MList.deref (⟨[(1, 20), (2, 30)], 3⟩ : MList Nat) ⟨LPtr.node 1, true⟩ =
      .ok 20 := by decide

/-- Claim C6 (violated by the code): after a move the moved-from table
does report size 0, but it is not safely usable.  Move construction
leaves the source's DynamicArray in the moved-from state (null data, zero
length), so the first emplace reads past the array; move assignment
resizes the source's array with default-constructed iterators whose
node_ is nullptr, so the first emplace dereferences a null pointer.
Neither insert can succeed. -/
theorem C6_moved_from_table_not_safely_usable :
    (moveCtor stOne).2.size_ = 0 ∧
    emplace idHash (moveCtor stOne).2 2 2 = .error .oobRead ∧
    (moveAssign emptyTable stOne).2.size_ = 0 ∧
    emplace idHash (moveAssign emptyTable stOne).2 2 2 = .error .nullDeref := by
  decide

/-- Claim C3, counterexample to the unrestricted statement: for the table
stOne already holding key 1 with value 10, emplacing (1, 20) mutates
nothing and the subsequent lookup still yields the OLD value 10, not the
inserted value 20. -/
theorem C3_cex_present_key_keeps_old_value :
    emplace idHash stOne 1 20 = .ok (stOne, Cur.node 0, false) ∧
    emplaceD idHash stOne 1 20 = stOne ∧
    atKey idHash (emplaceD idHash stOne 1 20) 1 = .ok 10 := by decide

/-- Claim C4, counterexample to the unrestricted statement: in the
reachable state stBroken key 17 is present, yet emplace(17, 99) fails to
see it (the node lies outside its bucket head's contiguous run after the
rehash), inserts a second node with key 17 and returns true, growing the
table. -/
theorem C4_cex_emplace_duplicates_after_rehash :
    17 ∈ keysOf stBroken ∧
    emplace idHash stBroken 17 99 =
      .ok (emplaceD idHash stBroken 17 99, Cur.node 3, true) ∧
    (emplaceD idHash stBroken 17 99).size_ = stBroken.size_ + 1 ∧
    (emplaceD idHash stBroken 17 99).elements ≠ stBroken.elements := by decide

/-- Claim C8, counterexample to the unrestricted statement: in the
reachable state stC8 (move assignment left size_ = 14 over an empty
7-bucket table) the next insertion triggers growth, but the chosen bucket
count is max(next_prime(14), 7, ceil(14 / 0.8)) = 18 - composite, and not
the smallest prime >= 14, which is 17. -/
theorem C8_cex_growth_count_not_prime :
    stC8.rehash_threshold_ < stC8.size_ + 1 ∧
    emplace idHash stC8 99 99 =
      .ok (emplaceD idHash stC8 99 99, Cur.node 0, true) ∧
    (emplaceD idHash stC8 99 99).bucket_count_ = 18 ∧
    next_prime (2 * stC8.bucket_count_) = 17 ∧
    ¬ Nat.Prime 18 := by
  refine ⟨by decide, by decide, by decide, by decide, by norm_num⟩

/-- Claim C7: the rehash contract.  count is clamped exactly as the spec
says, equality with the current bucket count is a strict no-op, otherwise
bucket count and threshold are updated; in every case size is unchanged
and the stored keys are exactly preserved (the backing list itself is
untouched). -/
theorem C7_rehash_contract (st : HashTable) (target : Nat) :
    (rehash st target).size_ = st.size_ ∧
    (rehash st target).elements = st.elements ∧
    keysOf (rehash st target) = keysOf st ∧
    (max (max target MIN_BUCKET_COUNT) ((5 * st.size_ + 3) / 4) = st.bucket_count_ →
      rehash st target = st) ∧
    (max (max target MIN_BUCKET_COUNT) ((5 * st.size_ + 3) / 4) ≠ st.bucket_count_ →
      (rehash st target).bucket_count_ =
        max (max target MIN_BUCKET_COUNT) ((5 * st.size_ + 3) / 4) ∧
      (rehash st target).rehash_threshold_ =
        4 * (rehash st target).bucket_count_ / 5) := by
  unfold rehash keysOf
  by_cases h : max (max target MIN_BUCKET_COUNT) ((5 * st.size_ + 3) / 4) = st.bucket_count_
  · simp [h]
  · simp [h]

/-- Witness for C7 at a concrete state: rehash(17) on stA. -/
theorem C7_rehash_contract_witness :
    (rehash stA 17).size_ = stA.size_ ∧
    (rehash stA 17).elements = stA.elements ∧
    keysOf (rehash stA 17) = keysOf stA ∧
    (max (max 17 MIN_BUCKET_COUNT) ((5 * stA.size_ + 3) / 4) = stA.bucket_count_ →
      rehash stA 17 = stA) ∧
    (max (max 17 MIN_BUCKET_COUNT) ((5 * stA.size_ + 3) / 4) ≠ stA.bucket_count_ →
      (rehash stA 17).bucket_count_ =
        max (max 17 MIN_BUCKET_COUNT) ((5 * stA.size_ + 3) / 4) ∧
      (rehash stA 17).rehash_threshold_ =
        4 * (rehash stA 17).bucket_count_ / 5) :=
  C7_rehash_contract stA 17

/-- Claim C10: pop_back on an empty array is a no-op (no element is
destroyed, nothing is signalled) and the guarded decrement can never
take size_ below zero. -/
theorem C10_pop_back_guarded {A : Type} (a : DynArr A) :
    (a.size_ = 0 → DynArr.pop_back a = a) ∧
    (DynArr.pop_back a).size_ ≤ a.size_ ∧
    (DynArr.pop_back a).data.length ≤ a.data.length := by
  refine ⟨fun h0 => by simp [DynArr.pop_back, h0], ?_, ?_⟩ <;>
    by_cases h : 0 < a.size_ <;>
      simp [DynArr.pop_back, h, List.length_take]

/-- Witness for C10: the empty array of capacity 0. -/
theorem C10_pop_back_guarded_witness :
    DynArr.pop_back (⟨[], 0, 0⟩ : DynArr Nat) = ⟨[], 0, 0⟩ :=
  (C10_pop_back_guarded ⟨[], 0, 0⟩).1 rfl

/-! ### Correctness of the trial-division primality test -/

/-- One-step unfolding of the fuelled loop. -/
theorem is_prime_loop_succ (n fuel i : Nat) :
    is_prime_loop n (fuel + 1) i =
      (if i * i ≤ n then
        if n % i == 0 || n % (i + 2) == 0 then false
        else is_prime_loop n fuel (i + 6)
      else true) := rfl

/-- The loop accepts when no divisor in the 6k+5 / 6k+7 chains exists. -/
theorem is_prime_loop_true_of (n : Nat) :
    ∀ fuel i, n < i + 6 * fuel →
    (∀ j, i ≤ j → j % 6 = i % 6 → j * j ≤ n → n % j ≠ 0 ∧ n % (j + 2) ≠ 0) →
    is_prime_loop n fuel i = true := by
  intro fuel
  induction fuel with
  | zero => intro i _ _; rfl
  | succ fuel ih =>
    intro i hfi h
    rw [is_prime_loop_succ]
    by_cases hsq : i * i ≤ n
    · have hj := h i (le_refl i) rfl hsq
      have h1 : (n % i == 0 || n % (i + 2) == 0) = false := by
        simp only [Bool.or_eq_false_iff, beq_eq_false_iff_ne, ne_eq]
        exact ⟨hj.1, hj.2⟩
      rw [if_pos hsq, h1]
      simp only [Bool.false_eq_true, if_false]
      exact ih (i + 6) (by omega) (fun j hij hmod hjj =>
        h j (by omega) (by omega) hjj)
    · simp [hsq]

/-- Conversely, an accepting loop rules out every divisor in the
chains. -/
theorem of_is_prime_loop_true (n : Nat) :
    ∀ fuel i, n < i + 6 * fuel → is_prime_loop n fuel i = true →
    ∀ j, i ≤ j → j % 6 = i % 6 → j * j ≤ n → n % j ≠ 0 ∧ n % (j + 2) ≠ 0 := by
  intro fuel
  induction fuel with
  | zero =>
    intro i hfi _ j hij _ hjj
    have : j * j < j * 1 := by
      calc j * j ≤ n := hjj
        _ < i := by omega
        _ ≤ j := hij
        _ = j * 1 := by ring
    have : j * j ≥ j * 1 := by
      rcases Nat.eq_zero_or_pos j with h0 | h0
      · simp [h0]
      · exact Nat.mul_le_mul_left j h0
    omega
  | succ fuel ih =>
    intro i hfi hloop j hij hmod hjj
    rw [is_prime_loop_succ] at hloop
    by_cases hsq : i * i ≤ n
    · rw [if_pos hsq] at hloop
      by_cases hdiv : (n % i == 0 || n % (i + 2) == 0) = true
      · rw [if_pos hdiv] at hloop; exact absurd hloop (by simp)
      · rw [if_neg hdiv] at hloop
        rcases Nat.eq_or_lt_of_le hij with heq | hlt
        · subst heq
          simp only [Bool.or_eq_true, beq_iff_eq, not_or] at hdiv
          exact ⟨hdiv.1, hdiv.2⟩
        · have hij6 : i + 6 ≤ j := by omega
          exact ih (i + 6) (by omega) hloop j hij6 (by omega) hjj
    · rw [if_neg hsq] at hloop
      have : i * i ≤ j * j := Nat.mul_le_mul hij hij
      omega

/-- The source's is_prime agrees with primality. -/
theorem is_prime_iff (n : Nat) : is_prime n = true ↔ Nat.Prime n := by
  constructor
  · intro h
    unfold is_prime at h
    by_cases h1 : n ≤ 1
    · simp [h1] at h
    · by_cases h3 : n ≤ 3
      · have h2 : ¬ n ≤ 1 := h1
        interval_cases n
        · exact Nat.prime_two
        · exact Nat.prime_three
      · rw [if_neg h1, if_neg h3] at h
        by_cases h23 : (n % 2 == 0 || n % 3 == 0) = true
        · rw [if_pos h23] at h; exact absurd h (by simp)
        · rw [if_neg h23] at h
          simp only [Bool.or_eq_true, beq_iff_eq, not_or] at h23
          have hn2 : n % 2 ≠ 0 := h23.1
          have hn3 : n % 3 ≠ 0 := h23.2
          rw [Nat.prime_def_le_sqrt]
          refine ⟨by omega, fun m hm hms hdvd => ?_⟩
          have hmm : m * m ≤ n := Nat.le_sqrt.mp hms
          obtain ⟨q, hqprime, hqdvdm, hqle⟩ : ∃ q, Nat.Prime q ∧ q ∣ m ∧ q ≤ m :=
            ⟨Nat.minFac m, Nat.minFac_prime (by omega), Nat.minFac_dvd m,
              Nat.minFac_le (by omega)⟩
          have hqdvd : q ∣ n := dvd_trans hqdvdm hdvd
          have hqq : q * q ≤ n := le_trans (Nat.mul_le_mul hqle hqle) hmm
          have hq2 : 2 ≤ q := hqprime.two_le
          have hqmod : n % q = 0 := by
            obtain ⟨c, hc⟩ := hqdvd
            subst hc
            exact Nat.mul_mod_right q c
          by_cases hq2' : q = 2
          · subst hq2'; omega
          · by_cases hq3' : q = 3
            · subst hq3'; omega
            · have hq4 : q ≠ 4 := fun hc => by
                rw [hc] at hqprime; norm_num at hqprime
              have hq5 : 5 ≤ q := by omega
              have h2d : ¬ (2 ∣ q) := fun hd =>
                hq2' (((Nat.prime_dvd_prime_iff_eq Nat.prime_two hqprime).mp hd).symm)
              have h3d : ¬ (3 ∣ q) := fun hd =>
                hq3' (((Nat.prime_dvd_prime_iff_eq Nat.prime_three hqprime).mp hd).symm)
              have hq6 : q % 6 = 1 ∨ q % 6 = 5 := by omega
              rcases hq6 with hq6 | hq6
              · obtain ⟨j, rfl⟩ : ∃ j, q = j + 2 := ⟨q - 2, by omega⟩
                have hjj : j * j ≤ n := by nlinarith
                have := of_is_prime_loop_true n (n + 1) 5 (by omega) h j
                  (by omega) (by omega) hjj
                exact this.2 hqmod
              · have := of_is_prime_loop_true n (n + 1) 5 (by omega) h q
                  (by omega) (by omega) hqq
                exact this.1 hqmod
  · intro hp
    unfold is_prime
    have h2 := hp.two_le
    by_cases h1 : n ≤ 1
    · omega
    · rw [if_neg h1]
      by_cases h3 : n ≤ 3
      · simp [h3]
      · rw [if_neg h3]
        have hn2 : n % 2 ≠ 0 := by
          intro hc
          rcases hp.eq_one_or_self_of_dvd 2 (Nat.dvd_of_mod_eq_zero hc) with h | h <;> omega
        have hn3 : n % 3 ≠ 0 := by
          intro hc
          rcases hp.eq_one_or_self_of_dvd 3 (Nat.dvd_of_mod_eq_zero hc) with h | h <;> omega
        have h23 : (n % 2 == 0 || n % 3 == 0) = false := by
          simp only [Bool.or_eq_false_iff, beq_eq_false_iff_ne, ne_eq]
          exact ⟨hn2, hn3⟩
        rw [h23]
        simp only [Bool.false_eq_true, if_false]
        apply is_prime_loop_true_of n (n + 1) 5 (by omega)
        intro j hj5 hjmod hjj
        constructor
        · intro hc
          rcases hp.eq_one_or_self_of_dvd j (Nat.dvd_of_mod_eq_zero hc) with h | h
          · omega
          · subst h; nlinarith
        · intro hc
          rcases hp.eq_one_or_self_of_dvd (j + 2) (Nat.dvd_of_mod_eq_zero hc) with h | h
          · omega
          · nlinarith

/-- One-step unfolding of the fuelled prime search. -/
theorem next_prime_loop_succ (fuel p : Nat) :
    next_prime_loop (fuel + 1) p =
      (if is_prime (p + 1) then p + 1 else next_prime_loop fuel (p + 1)) := rfl

/-- The fuelled search finds the least prime above p as soon as any prime
lies within the fuel window. -/
theorem next_prime_loop_spec :
    ∀ fuel p q, Nat.Prime q → p < q → q ≤ p + fuel →
    Nat.Prime (next_prime_loop fuel p) ∧ p < next_prime_loop fuel p ∧
    ∀ r, Nat.Prime r → p < r → next_prime_loop fuel p ≤ r := by
  intro fuel
  induction fuel with
  | zero => intro p q _ h1 h2; omega
  | succ fuel ih =>
    intro p q hq h1 h2
    rw [next_prime_loop_succ]
    by_cases hp1 : is_prime (p + 1) = true
    · rw [if_pos hp1]
      exact ⟨(is_prime_iff _).mp hp1, by omega, fun r _ hr => by omega⟩
    · rw [if_neg hp1]
      have hqne : q ≠ p + 1 := fun hc => hp1 ((is_prime_iff _).mpr (hc ▸ hq))
      have h' := ih (p + 1) q hq (by omega) (by omega)
      refine ⟨h'.1, by omega, fun r hr hpr => ?_⟩
      have : r ≠ p + 1 := fun hcc => hp1 ((is_prime_iff _).mpr (hcc ▸ hr))
      exact h'.2.2 r hr (by omega)

/-- next_prime n is the smallest prime strictly greater than n, for every
n ≥ 3 (for n ≤ 2 the source returns 2). -/
theorem next_prime_spec (n : Nat) (hn : 3 ≤ n) :
    Nat.Prime (next_prime n) ∧ n < next_prime n ∧
    ∀ r, Nat.Prime r → n < r → next_prime n ≤ r := by
  unfold next_prime
  rw [if_neg (by omega)]
  obtain ⟨q, hq, hq1, hq2⟩ := Nat.exists_prime_lt_and_le_two_mul n (by omega)
  exact next_prime_loop_spec (n + 2) n q hq hq1 (by omega)

/-! ### Scan and list bookkeeping lemmas -/

theorem scanFind_nil (bc b k : Nat) : scanFind bc b k [] = Cur.end_ := rfl

theorem scanFind_cons (bc b k : Nat) (p : Nat × HashNode) (rest : List (Nat × HashNode)) :
    scanFind bc b k (p :: rest) =
      (if p.2.cached_hash % bc == b then
        if p.2.key == k then Cur.node p.1 else scanFind bc b k rest
      else Cur.end_) := rfl

/-- Soundness of the bucket scan: a returned node lies in the scanned
suffix, has the searched key, and belongs to the bucket. -/
theorem scanFind_mem (bc b k : Nat) :
    ∀ (suf : List (Nat × HashNode)) {i : Nat}, scanFind bc b k suf = Cur.node i →
    ∃ n, (i, n) ∈ suf ∧ n.key = k ∧ n.cached_hash % bc = b := by
  intro suf
  induction suf with
  | nil => intro i h; rw [scanFind_nil] at h; exact absurd h (by simp)
  | cons p rest ih =>
    intro i h
    rw [scanFind_cons] at h
    by_cases h1 : (p.2.cached_hash % bc == b) = true
    · rw [if_pos h1] at h
      by_cases h2 : (p.2.key == k) = true
      · rw [if_pos h2] at h
        simp only [Cur.node.injEq] at h
        subst h
        exact ⟨p.2, by simp, by simpa using h2, by simpa using h1⟩
      · rw [if_neg h2] at h
        obtain ⟨n, hmem, hk, hb⟩ := ih h
        exact ⟨n, List.mem_cons_of_mem _ hmem, hk, hb⟩
    · rw [if_neg h1] at h
      exact absurd h (by simp)

/-- The scan never returns a null iterator. -/
theorem scanFind_ne_null (bc b k : Nat) :
    ∀ (suf : List (Nat × HashNode)), scanFind bc b k suf ≠ Cur.nullIt := by
  intro suf
  induction suf with
  | nil => rw [scanFind_nil]; simp
  | cons p rest ih =>
    rw [scanFind_cons]
    by_cases h1 : (p.2.cached_hash % bc == b) = true
    · rw [if_pos h1]
      by_cases h2 : (p.2.key == k) = true
      · rw [if_pos h2]; simp
      · rw [if_neg h2]; exact ih
    · rw [if_neg h1]; simp

/-- Scanning past a run of in-bucket nodes none of which carries the key
continues into the remainder. -/
theorem scanFind_append_miss (bc b k : Nat) :
    ∀ (run rest : List (Nat × HashNode)),
    (∀ p ∈ run, inBucketB bc b p = true) → (∀ p ∈ run, p.2.key ≠ k) →
    scanFind bc b k (run ++ rest) = scanFind bc b k rest := by
  intro run
  induction run with
  | nil => intro rest _ _; rfl
  | cons q run' ih =>
    intro rest hall hmiss
    rw [List.cons_append, scanFind_cons]
    have h1 : (q.2.cached_hash % bc == b) = true := hall q (by simp)
    have h2 : (q.2.key == k) = false := by
      simpa [beq_eq_false_iff_ne] using hmiss q (by simp)
    rw [if_pos h1, h2]
    simp only [Bool.false_eq_true, if_false]
    exact ih rest (fun p hp => hall p (by simp [hp])) (fun p hp => hmiss p (by simp [hp]))

/-- The scan stops on a node of the searched bucket carrying the key. -/
theorem scanFind_cons_hit (bc b k j : Nat) (nd : HashNode)
    (rest : List (Nat × HashNode))
    (hb : nd.cached_hash % bc = b) (hk : nd.key = k) :
    scanFind bc b k ((j, nd) :: rest) = Cur.node j := by
  rw [scanFind_cons]
  simp [hb, hk]

/-- The scan stops with end on a node of a different bucket. -/
theorem scanFind_stop (bc b k : Nat) (q : Nat × HashNode)
    (rest : List (Nat × HashNode)) (hb : inBucketB bc b q = false) :
    scanFind bc b k (q :: rest) = Cur.end_ := by
  rw [scanFind_cons]
  rw [show (q.2.cached_hash % bc == b) = false from hb]
  simp

theorem takeWhile_append_all {A : Type} {q : A → Bool} :
    ∀ (l : List A) (y : A) (r : List A),
    (∀ x ∈ l, q x = true) → q y = false →
    (l ++ y :: r).takeWhile q = l := by
  intro l
  induction l with
  | nil => intro y r _ hy; simpa [List.takeWhile_cons] using hy
  | cons a l' ih =>
    intro y r hall hy
    have ha : q a = true := hall a (by simp)
    simp only [List.cons_append, List.takeWhile_cons, ha, if_true]
    rw [ih y r (fun x hx => hall x (by simp [hx])) hy]

theorem dropWhile_append_all {A : Type} {q : A → Bool} :
    ∀ (l : List A) (y : A) (r : List A),
    (∀ x ∈ l, q x = true) → q y = false →
    (l ++ y :: r).dropWhile q = y :: r := by
  intro l
  induction l with
  | nil => intro y r _ hy; simp [List.dropWhile_cons, hy]
  | cons a l' ih =>
    intro y r hall hy
    have ha : q a = true := hall a (by simp)
    simp only [List.cons_append, List.dropWhile_cons, ha, if_true]
    exact ih y r (fun x hx => hall x (by simp [hx])) hy

/-- Splitting the backing list at a node id that occurs exactly once. -/
theorem nodup_ids_split {l : List (Nat × HashNode)} {i : Nat} {n : HashNode}
    (hnd : (l.map Prod.fst).Nodup) (hmem : (i, n) ∈ l) :
    ∃ A B, l = A ++ (i, n) :: B ∧ (∀ p ∈ A, p.1 ≠ i) ∧ (∀ p ∈ B, p.1 ≠ i) := by
  obtain ⟨A, B, rfl⟩ := List.append_of_mem hmem
  rw [List.map_append, List.map_cons] at hnd
  have hni : (i : Nat) ∉ A.map Prod.fst ++ B.map Prod.fst :=
    (List.nodup_cons.mp (List.nodup_middle.mp hnd)).1
  refine ⟨A, B, rfl, ?_, ?_⟩
  · intro p hp hpi
    exact hni (List.mem_append_left _ (List.mem_map.mpr ⟨p, hp, hpi⟩))
  · intro p hp hpi
    exact hni (List.mem_append_right _ (List.mem_map.mpr ⟨p, hp, hpi⟩))

/-- suffixFrom jumps over a prefix free of the id. -/
theorem suffixFrom_append (A : List (Nat × HashNode)) (i : Nat) (n : HashNode)
    (B : List (Nat × HashNode)) (hA : ∀ p ∈ A, p.1 ≠ i) :
    suffixFrom (A ++ (i, n) :: B) i = (i, n) :: B := by
  unfold suffixFrom
  refine dropWhile_append_all A (i, n) B ?_ (by simp)
  intro x hx
  simpa using hA x hx

/-- idxOfId is the length of the id-free prefix. -/
theorem idxOfId_append (A : List (Nat × HashNode)) (i : Nat) (n : HashNode)
    (B : List (Nat × HashNode)) (hA : ∀ p ∈ A, p.1 ≠ i) :
    idxOfId (A ++ (i, n) :: B) i = A.length := by
  unfold idxOfId
  rw [takeWhile_append_all A (i, n) B ?_ (by simp)]
  intro x hx
  simpa using hA x hx

/-- A contiguous bucket (its filter is an infix) splits the list into a
prefix and suffix containing none of its nodes. -/
theorem infix_filter_parts {A : Type} {l : List A} {P : A → Bool}
    (hinf : l.filter P <:+: l) :
    ∃ pre post, l = pre ++ l.filter P ++ post ∧
      (∀ x ∈ pre, P x = false) ∧ (∀ x ∈ post, P x = false) := by
  obtain ⟨pre, post, h⟩ := hinf
  have hf : (pre ++ l.filter P ++ post).filter P = l.filter P := by rw [h]
  rw [List.filter_append, List.filter_append] at hf
  have hself : (l.filter P).filter P = l.filter P := by
    apply List.filter_eq_self.mpr
    intro a ha
    exact List.of_mem_filter ha
  rw [hself] at hf
  have hlen := congrArg List.length hf
  simp only [List.length_append] at hlen
  have hpre : pre.filter P = [] := List.eq_nil_of_length_eq_zero (by omega)
  have hpost : post.filter P = [] := List.eq_nil_of_length_eq_zero (by omega)
  refine ⟨pre, post, h.symm, ?_, ?_⟩
  · intro x hx
    have := List.filter_eq_nil_iff.mp hpre x hx
    simpa using this
  · intro x hx
    have := List.filter_eq_nil_iff.mp hpost x hx
    simpa using this

/-- find? skips a prefix on which the predicate is everywhere false. -/
theorem find?_append_all_false {A : Type} {P : A → Bool} :
    ∀ (l r : List A), (∀ x ∈ l, P x = false) → (l ++ r).find? P = r.find? P := by
  intro l
  induction l with
  | nil => intro r _; rfl
  | cons a l' ih =>
    intro r hall
    rw [List.cons_append, List.find?_cons_of_neg _ (by simp [hall a (by simp)])]
    exact ih r (fun x hx => hall x (by simp [hx]))

/-! ### find plumbing -/

theorem bucketRead_eq (st : HashTable) (b : Nat) (h : b < st.hash_table.length) :
    bucketRead st b = .ok (st.hash_table.getD b Cur.end_) := by
  unfold bucketRead
  rw [show st.hash_table.get? b = some st.hash_table[b] from by
    rw [List.get?_eq_getElem?]; exact List.getElem?_eq_getElem h]
  rw [List.getD_eq_getElem?_getD, List.getElem?_eq_getElem h]
  rfl

theorem curSuffix_node (st : HashTable) {i : Nat} {n : HashNode}
    (hmem : (i, n) ∈ st.elements) :
    curSuffix st (Cur.node i) = .ok (suffixFrom st.elements i) := by
  have hstep : curSuffix st (Cur.node i) =
      (if (st.elements.any fun p => p.1 == i) = true
       then Except.ok (suffixFrom st.elements i)
       else Except.error Err.useAfterFree) := rfl
  rw [hstep, if_pos (List.any_eq_true.mpr ⟨(i, n), hmem, by simp⟩)]

/-- Every element of the suffix a bucket head generates lies in the
backing list. -/
theorem sufOf_subset (st : HashTable) (b : Nat) :
    ∀ p ∈ sufOf st b, p ∈ st.elements := by
  intro p hp
  unfold sufOf at hp
  rcases h : slotOf st b with _ | i | _ <;> rw [h] at hp
  · simp at hp
  · exact (List.dropWhile_sublist _).mem hp
  · simp at hp

/-- Under proper heads the lookup loop runs without undefined reads and
returns the scan over the head's suffix. -/
theorem find_eq_scan (hash : Key → Nat) (st : HashTable) (k : Key)
    (hbc : 0 < st.bucket_count_) (hcov : st.bucket_count_ ≤ st.hash_table.length)
    (hheads : HeadsProper st) :
    find hash st k =
      .ok (scanFind st.bucket_count_ (hash k % st.bucket_count_) k
        (sufOf st (hash k % st.bucket_count_))) := by
  have hblt : hash k % st.bucket_count_ < st.hash_table.length :=
    lt_of_lt_of_le (Nat.mod_lt _ hbc) hcov
  have hstep : find hash st k = (do
      let slot ← bucketRead st (hash k % st.bucket_count_)
      let suf ← curSuffix st slot
      pure (scanFind st.bucket_count_ (hash k % st.bucket_count_) k suf)) := rfl
  rw [hstep, bucketRead_eq st _ hblt]
  rcases hheads _ (Nat.mod_lt (hash k) hbc) with hend | ⟨i, n, hslot, hmem, _⟩
  · rw [hend]
    unfold sufOf slotOf
    rw [hend]
    rfl
  · rw [hslot]
    unfold sufOf slotOf
    rw [hslot]
    show (curSuffix st (Cur.node i)) >>= _ = _
    rw [curSuffix_node st hmem]
    rfl

/-- With proper heads, searching for an absent key lands on end. -/
theorem find_not_mem (hash : Key → Nat) (st : HashTable) (k : Key)
    (hbc : 0 < st.bucket_count_) (hcov : st.bucket_count_ ≤ st.hash_table.length)
    (hheads : HeadsProper st) (hnk : k ∉ keysOf st) :
    find hash st k = .ok Cur.end_ := by
  rw [find_eq_scan hash st k hbc hcov hheads]
  rcases hscan : scanFind st.bucket_count_ (hash k % st.bucket_count_) k
      (sufOf st (hash k % st.bucket_count_)) with _ | i | _
  · rfl
  · obtain ⟨n, hmem, hk, _⟩ := scanFind_mem _ _ _ _ hscan
    exact absurd (List.mem_map.mpr ⟨(i, n), sufOf_subset st _ _ hmem, hk⟩) hnk
  · exact absurd hscan (scanFind_ne_null _ _ _ _)

/-- Well-formedness yields proper heads. -/
theorem WF.headsProper {hash : Key → Nat} {st : HashTable} (hwf : WF hash st) :
    HeadsProper st := by
  obtain ⟨-, hlen, -, -, hheads, -⟩ := hwf
  intro b hblt
  have hgd : st.hash_table.getD b Cur.end_ =
      firstOfBucket st.elements st.bucket_count_ b := by
    rw [List.getD_eq_getElem?_getD, ← List.get?_eq_getElem?, hheads b hblt]
    rfl
  unfold firstOfBucket at hgd
  rcases hfind : st.elements.find? (inBucketB st.bucket_count_ b) with _ | p
  · rw [hfind] at hgd
    exact Or.inl hgd
  · rw [hfind] at hgd
    refine Or.inr ⟨p.1, p.2, by simpa using hgd, by simpa using List.mem_of_find?_eq_some hfind, ?_⟩
    have := List.find?_some hfind
    simpa [inBucketB] using this

/-- A run of in-bucket nodes containing the key always yields a hit
inside the run. -/
theorem scanFind_finds_in_run (bc b k : Nat) :
    ∀ (blk rest : List (Nat × HashNode)),
    (∀ p ∈ blk, inBucketB bc b p = true) → (∃ p ∈ blk, p.2.key = k) →
    ∃ j m, scanFind bc b k (blk ++ rest) = Cur.node j ∧ (j, m) ∈ blk ∧ m.key = k := by
  intro blk
  induction blk with
  | nil => intro rest _ h; simp at h
  | cons q blk' ih =>
    intro rest hall hex
    by_cases hq : q.2.key = k
    · refine ⟨q.1, q.2, ?_, by simp, hq⟩
      rw [List.cons_append, scanFind_cons]
      have h1 : (q.2.cached_hash % bc == b) = true := hall q (by simp)
      rw [if_pos h1, if_pos (by simpa using hq)]
    · obtain ⟨p, hp, hpk⟩ := hex
      rcases List.mem_cons.mp hp with rfl | hp'
      · exact absurd hpk hq
      · obtain ⟨j, m, hscan, hm, hmk⟩ :=
          ih rest (fun p hp => hall p (by simp [hp])) ⟨p, hp', hpk⟩
        refine ⟨j, m, ?_, by simp [hm], hmk⟩
        rw [List.cons_append, scanFind_cons]
        have h1 : (q.2.cached_hash % bc == b) = true := hall q (by simp)
        rw [if_pos h1, if_neg (by simpa using hq)]
        exact hscan

/-- Under full well-formedness, the bucket scan from the recorded head
reaches exactly the (unique) node carrying the key. -/
theorem scan_found {hash : Key → Nat} {st : HashTable} {k : Key} {i : Nat}
    {n : HashNode} (hwf : WF hash st) (hmem : (i, n) ∈ st.elements)
    (hkey : n.key = k) :
    scanFind st.bucket_count_ (hash k % st.bucket_count_) k
      (sufOf st (hash k % st.bucket_count_)) = Cur.node i := by
  obtain ⟨⟨hbc, hcov0, hids, hfresh⟩, hlen, hhash, hkeys, hheads, hcontig⟩ := hwf
  have hblt : hash k % st.bucket_count_ < st.bucket_count_ := Nat.mod_lt _ hbc
  have hnb : n.cached_hash % st.bucket_count_ = hash k % st.bucket_count_ := by
    rw [hhash (i, n) hmem, hkey]
  have hmem_blk : (i, n) ∈ st.elements.filter
      (inBucketB st.bucket_count_ (hash k % st.bucket_count_)) :=
    List.mem_filter.mpr ⟨hmem, by simpa [inBucketB] using hnb⟩
  obtain ⟨pre, post, hsplit, hpre, hpost⟩ :=
    infix_filter_parts (hcontig _ hblt)
  obtain ⟨hd, tl, hblk⟩ := List.exists_cons_of_ne_nil
    (show st.elements.filter (inBucketB st.bucket_count_ (hash k % st.bucket_count_)) ≠ []
      from fun hc => by rw [hc] at hmem_blk; simp at hmem_blk)
  have hall_blk : ∀ p ∈ st.elements.filter
      (inBucketB st.bucket_count_ (hash k % st.bucket_count_)),
      inBucketB st.bucket_count_ (hash k % st.bucket_count_) p = true :=
    fun p hp => List.of_mem_filter hp
  -- the recorded head is the first node of the bucket, i.e. the head of the block
  have hfind2 : st.elements.find? (inBucketB st.bucket_count_ (hash k % st.bucket_count_)) =
      some hd := by
    rw [hsplit, List.append_assoc, find?_append_all_false pre _ hpre, hblk]
    exact List.find?_cons_of_pos _ (hall_blk hd (by rw [hblk]; simp))
  have hfirst : firstOfBucket st.elements st.bucket_count_ (hash k % st.bucket_count_) =
      Cur.node hd.1 := by
    unfold firstOfBucket
    rw [hfind2]
  have hslot : slotOf st (hash k % st.bucket_count_) = Cur.node hd.1 := by
    unfold slotOf
    rw [List.getD_eq_getElem?_getD, ← List.get?_eq_getElem?,
      hheads _ hblt, hfirst]
    rfl
  -- the elements split around the block head
  have hsplit' : st.elements = pre ++ hd :: (tl ++ post) := by
    rw [hsplit, hblk]; simp
  have hpre_ne : ∀ p ∈ pre, p.1 ≠ hd.1 := by
    intro p hp hpe
    have hnd : (st.elements.map Prod.fst).Nodup := hids
    rw [hsplit', List.map_append, List.map_cons] at hnd
    exact (List.nodup_cons.mp (List.nodup_middle.mp hnd)).1
      (List.mem_append_left _ (List.mem_map.mpr ⟨p, hp, hpe⟩))
  have hsuf : sufOf st (hash k % st.bucket_count_) = hd :: (tl ++ post) := by
    unfold sufOf
    rw [hslot]
    show suffixFrom st.elements hd.1 = _
    rw [hsplit']
    exact suffixFrom_append pre hd.1 hd.2 (tl ++ post) hpre_ne
  rw [hsuf, show hd :: (tl ++ post) = (hd :: tl) ++ post from by simp, ← hblk]
  obtain ⟨j, m, hscan, hjm, hmk⟩ := scanFind_finds_in_run _ _ k _ post hall_blk
    ⟨(i, n), hmem_blk, hkey⟩
  rw [hscan]
  -- uniqueness of the key forces the hit to be the given node
  have heq : (j, m) = (i, n) := by
    have hinj := List.inj_on_of_nodup_map
      (show (st.elements.map (fun p => p.2.key)).Nodup from hkeys)
    exact hinj (List.mem_of_mem_filter hjm) hmem
      (show m.key = n.key by rw [hmk, hkey])
  rw [show j = i from congrArg Prod.fst heq]

/-- Under full well-formedness, find returns exactly the cursor of the
(unique) node carrying the key. -/
theorem find_found {hash : Key → Nat} {st : HashTable} {k : Key} {i : Nat}
    {n : HashNode} (hwf : WF hash st) (hmem : (i, n) ∈ st.elements)
    (hkey : n.key = k) :
    find hash st k = .ok (Cur.node i) := by
  have hbc : 0 < st.bucket_count_ := hwf.1.1
  have hcov : st.bucket_count_ ≤ st.hash_table.length := le_of_eq hwf.2.1.symm
  rw [find_eq_scan hash st k hbc hcov (WF.headsProper hwf), scan_found hwf hmem hkey]

/-- With distinct ids, dereferencing a live node id yields its node. -/
theorem lookupNode_eq {l : List (Nat × HashNode)} {i : Nat} {n : HashNode}
    (hnd : (l.map Prod.fst).Nodup) (hmem : (i, n) ∈ l) :
    lookupNode l i = some n := by
  obtain ⟨A, B, rfl, hA, hB⟩ := nodup_ids_split hnd hmem
  unfold lookupNode
  rw [find?_append_all_false A _ (fun p hp => by simpa using hA p hp),
    List.find?_cons_of_pos _ (by simp)]
  rfl

/-- Under proper heads, emplace reduces to the duplicate scan followed by
the optional growth rehash and the insertion phase. -/
theorem emplace_unfold (hash : Key → Nat) (st : HashTable) (k : Key) (v : Val)
    (hbc : 0 < st.bucket_count_) (hcov : st.bucket_count_ ≤ st.hash_table.length)
    (hheads : HeadsProper st) :
    emplace hash st k v =
      (match scanFind st.bucket_count_ (hash k % st.bucket_count_) k
          (sufOf st (hash k % st.bucket_count_)) with
       | Cur.node i => Except.ok (st, Cur.node i, false)
       | _ => emplaceNew
           (if st.size_ + 1 > st.rehash_threshold_
            then rehash st (next_prime (st.bucket_count_ * 2)) else st)
           (hash k) k v) := by
  have hblt : hash k % st.bucket_count_ < st.hash_table.length :=
    lt_of_lt_of_le (Nat.mod_lt _ hbc) hcov
  have hstep : emplace hash st k v = (do
      let slot ← bucketRead st (hash k % st.bucket_count_)
      let suf ← curSuffix st slot
      match scanFind st.bucket_count_ (hash k % st.bucket_count_) k suf with
      | Cur.node i => pure (st, Cur.node i, false)
      | _ =>
        (emplaceNew
          (if st.size_ + 1 > st.rehash_threshold_
            then rehash st (next_prime (st.bucket_count_ * 2)) else st)
          (hash k) k v)) := rfl
  rw [hstep, bucketRead_eq st _ hblt]
  rcases hheads _ (Nat.mod_lt (hash k) hbc) with hend | ⟨i, n, hslot, hmem, -⟩
  · rw [hend]
    unfold sufOf slotOf
    rw [hend]
    rfl
  · rw [hslot]
    unfold sufOf slotOf
    rw [hslot]
    show ((curSuffix st (Cur.node i)) >>= _) = _
    rw [curSuffix_node st hmem]
    rfl

theorem atKey_of_find_node (hash : Key → Nat) (st : HashTable) (k : Key)
    {i : Nat} {n : HashNode} (hf : find hash st k = .ok (Cur.node i))
    (hl : lookupNode st.elements i = some n) :
    atKey hash st k = .ok n.value := by
  have hstep : atKey hash st k = ((find hash st k) >>= fun c =>
      match c with
      | Cur.end_ => Except.error Err.keyNotFound
      | Cur.node i =>
        (match lookupNode st.elements i with
         | some n => pure n.value
         | none => Except.error Err.useAfterFree)
      | Cur.nullIt => Except.error Err.nullDeref) := rfl
  rw [hstep, hf]
  show (match lookupNode st.elements i with
        | some n => pure n.value
        | none => Except.error Err.useAfterFree : Except Err Val) = _
  rw [hl]
  rfl

theorem atKey_of_find_end (hash : Key → Nat) (st : HashTable) (k : Key)
    (hf : find hash st k = .ok Cur.end_) :
    atKey hash st k = .error .keyNotFound := by
  have hstep : atKey hash st k = ((find hash st k) >>= fun c =>
      match c with
      | Cur.end_ => Except.error Err.keyNotFound
      | Cur.node i =>
        (match lookupNode st.elements i with
         | some n => pure n.value
         | none => Except.error Err.useAfterFree)
      | Cur.nullIt => Except.error Err.nullDeref) := rfl
  rw [hstep, hf]
  rfl

theorem getConst_of_find_node (hash : Key → Nat) (st : HashTable) (k : Key)
    {i : Nat} {n : HashNode} (hf : find hash st k = .ok (Cur.node i))
    (hl : lookupNode st.elements i = some n) :
    getConst hash st k = .ok n.value := by
  have hstep : getConst hash st k = ((find hash st k) >>= fun c =>
      match c with
      | Cur.end_ => Except.error Err.keyNotFound
      | Cur.node i =>
        (match lookupNode st.elements i with
         | some n => pure n.value
         | none => Except.error Err.useAfterFree)
      | Cur.nullIt => Except.error Err.nullDeref) := rfl
  rw [hstep, hf]
  show (match lookupNode st.elements i with
        | some n => pure n.value
        | none => Except.error Err.useAfterFree : Except Err Val) = _
  rw [hl]
  rfl

theorem getConst_of_find_end (hash : Key → Nat) (st : HashTable) (k : Key)
    (hf : find hash st k = .ok Cur.end_) :
    getConst hash st k = .error .keyNotFound := by
  have hstep : getConst hash st k = ((find hash st k) >>= fun c =>
      match c with
      | Cur.end_ => Except.error Err.keyNotFound
      | Cur.node i =>
        (match lookupNode st.elements i with
         | some n => pure n.value
         | none => Except.error Err.useAfterFree)
      | Cur.nullIt => Except.error Err.nullDeref) := rfl
  rw [hstep, hf]
  rfl

/-- Claim C4, amended: on a well-formed table (bucket contiguity and
bookkeeping intact - the invariant the specification asserts but rehash
fails to maintain), emplace with an already-present key returns the
cursor of the existing node with false and mutates nothing at all: the
result state is the input state. -/
theorem C4_emplace_existing_key_noop (hash : Key → Nat) (st : HashTable)
    (k : Key) (v : Val) (i : Nat) (n : HashNode) (hwf : WF hash st)
    (hmem : (i, n) ∈ st.elements) (hkey : n.key = k) :
    emplace hash st k v = .ok (st, Cur.node i, false) := by
  rw [emplace_unfold hash st k v hwf.1.1 (le_of_eq hwf.2.1.symm) (WF.headsProper hwf),
    scan_found hwf hmem hkey]

/-- Witness for the amended C4: re-emplacing key 1 into stOne. -/
theorem C4_emplace_existing_key_noop_witness :
    emplace idHash stOne 1 99 = .ok (stOne, Cur.node 0, false) :=
  C4_emplace_existing_key_noop idHash stOne 1 99 0 ⟨1, 10, 1⟩ (by decide)
    (by decide) (by decide)

/-- Claim C9, amended: on a well-formed table, at(k) and the const
operator[](k) fail with KeyNotFound exactly when no node with key k is
present, and return the stored value when one is.  Both observers take
the table by value and produce no successor state: the table is unchanged
in either case. -/
theorem C9_checked_lookup (hash : Key → Nat) (st : HashTable) (k : Key)
    (hwf : WF hash st) :
    (atKey hash st k = .error .keyNotFound ↔ k ∉ keysOf st) ∧
    (getConst hash st k = .error .keyNotFound ↔ k ∉ keysOf st) ∧
    (∀ i n, (i, n) ∈ st.elements → n.key = k →
      atKey hash st k = .ok n.value ∧ getConst hash st k = .ok n.value) := by
  have hbc : 0 < st.bucket_count_ := hwf.1.1
  have hcov : st.bucket_count_ ≤ st.hash_table.length := le_of_eq hwf.2.1.symm
  have hids : (idsOf st).Nodup := hwf.1.2.2.1
  refine ⟨?_, ?_, ?_⟩
  · by_cases hk : k ∈ keysOf st
    · obtain ⟨p, hp, hpk⟩ := List.mem_map.mp hk
      have hmem : (p.1, p.2) ∈ st.elements := by simpa using hp
      have hat := atKey_of_find_node hash st k (find_found hwf hmem hpk)
        (lookupNode_eq hids hmem)
      exact iff_of_false (by rw [hat]; simp) (not_not_intro hk)
    · exact iff_of_true
        (atKey_of_find_end hash st k
          (find_not_mem hash st k hbc hcov (WF.headsProper hwf) hk)) hk
  · by_cases hk : k ∈ keysOf st
    · obtain ⟨p, hp, hpk⟩ := List.mem_map.mp hk
      have hmem : (p.1, p.2) ∈ st.elements := by simpa using hp
      have hat := getConst_of_find_node hash st k (find_found hwf hmem hpk)
        (lookupNode_eq hids hmem)
      exact iff_of_false (by rw [hat]; simp) (not_not_intro hk)
    · exact iff_of_true
        (getConst_of_find_end hash st k
          (find_not_mem hash st k hbc hcov (WF.headsProper hwf) hk)) hk
  · intro i n hmem hkey
    exact ⟨atKey_of_find_node hash st k (find_found hwf hmem hkey)
        (lookupNode_eq hids hmem),
      getConst_of_find_node hash st k (find_found hwf hmem hkey)
        (lookupNode_eq hids hmem)⟩

/-- Witness for the amended C9 at the one-element table stOne and key 1. -/
theorem C9_checked_lookup_witness :
    (atKey idHash stOne 1 = .error .keyNotFound ↔ 1 ∉ keysOf stOne) ∧
    (getConst idHash stOne 1 = .error .keyNotFound ↔ 1 ∉ keysOf stOne) ∧
    (∀ i n, (i, n) ∈ stOne.elements → n.key = 1 →
      atKey idHash stOne 1 = .ok n.value ∧ getConst idHash stOne 1 = .ok n.value) :=
  C9_checked_lookup idHash stOne 1 (by decide)

/-! ### The insertion phase -/

theorem getD_set_self {l : List Cur} {b : Nat} {c : Cur} (h : b < l.length) :
    (l.set b c).getD b Cur.end_ = c := by
  rw [List.getD_eq_getElem?_getD, List.getElem?_set_self h]
  rfl

theorem getD_set_ne {l : List Cur} {b bq : Nat} {c : Cur} (h : b ≠ bq) :
    (l.set b c).getD bq Cur.end_ = l.getD bq Cur.end_ := by
  rw [List.getD_eq_getElem?_getD, List.getElem?_set_ne h, ← List.getD_eq_getElem?_getD]

theorem sufOf_eq_of_slot_node {st : HashTable} {b i : Nat}
    (h : slotOf st b = Cur.node i) : sufOf st b = suffixFrom st.elements i := by
  unfold sufOf
  rw [h]

/-- The insertion phase on a structurally sound table with an absent key:
it allocates the fresh node at the end of the bucket's run, keeps every
bookkeeping field consistent, and leaves the new node reachable by the
bucket scan. -/
theorem emplaceNew_spec (hash : Key → Nat) (st1 : HashTable) (k : Key) (v : Val)
    (hbc : 0 < st1.bucket_count_)
    (hcov : st1.bucket_count_ ≤ st1.hash_table.length)
    (hheads : HeadsProper st1) (hids : (idsOf st1).Nodup)
    (hfresh : ∀ p ∈ st1.elements, p.1 < st1.next_id)
    (hnotin : k ∉ keysOf st1) :
    ∃ st' X Y,
      emplaceNew st1 (hash k) k v = .ok (st', Cur.node st1.next_id, true) ∧
      st1.elements = X ++ Y ∧
      st'.elements = X ++ (st1.next_id, (⟨k, v, hash k⟩ : HashNode)) :: Y ∧
      st'.hash_table.length = st1.hash_table.length ∧
      st'.bucket_count_ = st1.bucket_count_ ∧
      st'.rehash_threshold_ = st1.rehash_threshold_ ∧
      st'.size_ = st1.size_ + 1 ∧
      st'.next_id = st1.next_id + 1 ∧
      HeadsProper st' ∧
      (idsOf st').Nodup ∧
      (∀ p ∈ st'.elements, p.1 < st'.next_id) ∧
      scanFind st'.bucket_count_ (hash k % st'.bucket_count_) k
        (sufOf st' (hash k % st'.bucket_count_)) = Cur.node st1.next_id := by
  have hblt : hash k % st1.bucket_count_ < st1.bucket_count_ := Nat.mod_lt _ hbc
  have hbltl : hash k % st1.bucket_count_ < st1.hash_table.length :=
    lt_of_lt_of_le hblt hcov
  have hstep : emplaceNew st1 (hash k) k v = (do
      let slot1 ← bucketRead st1 (hash k % st1.bucket_count_)
      let suf1 ← curSuffix st1 slot1
      let pos := match slot1 with
        | Cur.node i => idxOfId st1.elements i +
            runLen st1.bucket_count_ (hash k % st1.bucket_count_) suf1
        | _ => st1.elements.length
      pure ((⟨st1.elements.take pos ++
                (st1.next_id, ⟨k, v, hash k⟩) :: st1.elements.drop pos,
              (if slot1 = Cur.end_
               then st1.hash_table.set (hash k % st1.bucket_count_)
                 (Cur.node st1.next_id)
               else st1.hash_table),
              st1.size_ + 1, st1.bucket_count_, st1.rehash_threshold_,
              st1.next_id + 1⟩ : HashTable),
            Cur.node st1.next_id, true)) := rfl
  rcases hheads _ hblt with hend | ⟨h0, m0, hslot, hm0mem, hm0b⟩
  · -- empty bucket: the node is appended at the very end of the list and
    -- becomes the bucket head
    have hrunA : emplaceNew st1 (hash k) k v =
        .ok (⟨st1.elements.take st1.elements.length ++
            (st1.next_id, ⟨k, v, hash k⟩) :: st1.elements.drop st1.elements.length,
            st1.hash_table.set (hash k % st1.bucket_count_) (Cur.node st1.next_id),
            st1.size_ + 1, st1.bucket_count_, st1.rehash_threshold_,
            st1.next_id + 1⟩,
          Cur.node st1.next_id, true) := by
      rw [hstep, bucketRead_eq st1 _ hbltl, hend]
      rfl
    refine ⟨⟨st1.elements.take st1.elements.length ++
        (st1.next_id, ⟨k, v, hash k⟩) :: st1.elements.drop st1.elements.length,
        st1.hash_table.set (hash k % st1.bucket_count_) (Cur.node st1.next_id),
        st1.size_ + 1, st1.bucket_count_, st1.rehash_threshold_, st1.next_id + 1⟩,
      st1.elements, [], hrunA, by simp, by simp, by simp, rfl, rfl, rfl, rfl,
      ?_, ?_, ?_, ?_⟩
    · -- proper heads
      intro bq hbq
      by_cases hbb : bq = hash k % st1.bucket_count_
      · subst hbb
        exact Or.inr ⟨st1.next_id, ⟨k, v, hash k⟩, getD_set_self hbltl, by simp, rfl⟩
      · rw [show ((⟨_, st1.hash_table.set (hash k % st1.bucket_count_)
            (Cur.node st1.next_id), _, _, _, _⟩ : HashTable)).hash_table =
            st1.hash_table.set (hash k % st1.bucket_count_) (Cur.node st1.next_id)
            from rfl,
          getD_set_ne (fun hc => hbb hc.symm)]
        rcases hheads bq hbq with he | ⟨j, mj, hj, hjm, hjb⟩
        · exact Or.inl he
        · exact Or.inr ⟨j, mj, hj, by simp [hjm], hjb⟩
    · -- distinct ids
      have hip : idsOf (⟨st1.elements.take st1.elements.length ++
          (st1.next_id, ⟨k, v, hash k⟩) :: st1.elements.drop st1.elements.length,
          st1.hash_table.set (hash k % st1.bucket_count_) (Cur.node st1.next_id),
          st1.size_ + 1, st1.bucket_count_, st1.rehash_threshold_,
          st1.next_id + 1⟩ : HashTable) = idsOf st1 ++ [st1.next_id] := by
        simp [idsOf]
      rw [hip, List.nodup_append]
      refine ⟨hids, List.nodup_singleton _, ?_⟩
      intro a ha
      obtain ⟨p, hp, hpa⟩ := List.mem_map.mp ha
      simp only [List.mem_singleton]
      intro hc
      exact absurd (hpa ▸ hc ▸ hfresh p hp) (lt_irrefl _)
    · -- freshness
      intro p hp
      simp only [List.take_length, List.drop_length] at hp
      rcases List.mem_append.mp hp with hp1 | hp1
      · exact lt_trans (hfresh p hp1) (Nat.lt_succ_self _)
      · rcases List.mem_cons.mp hp1 with rfl | hp2
        · exact Nat.lt_succ_self _
        · simp at hp2
    · -- the scan reaches the new node
      have hslot' : slotOf (⟨st1.elements.take st1.elements.length ++
          (st1.next_id, ⟨k, v, hash k⟩) :: st1.elements.drop st1.elements.length,
          st1.hash_table.set (hash k % st1.bucket_count_) (Cur.node st1.next_id),
          st1.size_ + 1, st1.bucket_count_, st1.rehash_threshold_,
          st1.next_id + 1⟩ : HashTable) (hash k % st1.bucket_count_) =
          Cur.node st1.next_id := getD_set_self hbltl
      rw [sufOf_eq_of_slot_node hslot']
      have hel : suffixFrom (st1.elements.take st1.elements.length ++
          (st1.next_id, (⟨k, v, hash k⟩ : HashNode)) :: st1.elements.drop
            st1.elements.length) st1.next_id =
          [(st1.next_id, ⟨k, v, hash k⟩)] := by
        rw [List.take_length, List.drop_length]
        exact suffixFrom_append st1.elements st1.next_id _ []
          (fun p hp => Nat.ne_of_lt (hfresh p hp))
      rw [show (⟨st1.elements.take st1.elements.length ++
          (st1.next_id, (⟨k, v, hash k⟩ : HashNode)) :: st1.elements.drop
            st1.elements.length,
          st1.hash_table.set (hash k % st1.bucket_count_) (Cur.node st1.next_id),
          st1.size_ + 1, st1.bucket_count_, st1.rehash_threshold_,
          st1.next_id + 1⟩ : HashTable).elements =
          st1.elements.take st1.elements.length ++
          (st1.next_id, (⟨k, v, hash k⟩ : HashNode)) :: st1.elements.drop
            st1.elements.length from rfl, hel]
      exact scanFind_cons_hit _ _ _ _ _ _ rfl rfl
  · -- occupied bucket: the node lands at the end of the bucket's run and
    -- the head is untouched
    obtain ⟨A, B, hsplitAB, hA, hB⟩ := nodup_ids_split hids hm0mem
    have hb1 : emplaceNew st1 (hash k) k v = (do
        let suf1 ← curSuffix st1 (Cur.node h0)
        pure ((⟨st1.elements.take (idxOfId st1.elements h0 +
                  runLen st1.bucket_count_ (hash k % st1.bucket_count_) suf1) ++
                (st1.next_id, ⟨k, v, hash k⟩) ::
                st1.elements.drop (idxOfId st1.elements h0 +
                  runLen st1.bucket_count_ (hash k % st1.bucket_count_) suf1),
              st1.hash_table,
              st1.size_ + 1, st1.bucket_count_, st1.rehash_threshold_,
              st1.next_id + 1⟩ : HashTable),
            Cur.node st1.next_id, true)) := by
      rw [hstep, bucketRead_eq st1 _ hbltl, hslot]
      rfl
    rw [hb1, curSuffix_node st1 hm0mem]
    clear hb1
    have hsufSt1 : suffixFrom st1.elements h0 = (h0, m0) :: B := by
      rw [hsplitAB]
      exact suffixFrom_append A h0 m0 B hA
    have hidx : idxOfId st1.elements h0 = A.length := by
      rw [hsplitAB]
      exact idxOfId_append A h0 m0 B hA
    have hm0in : inBucketB st1.bucket_count_ (hash k % st1.bucket_count_) (h0, m0) = true := by
      simp [inBucketB, hm0b]
    have hRhead : ((h0, m0) :: B).takeWhile
        (inBucketB st1.bucket_count_ (hash k % st1.bucket_count_)) =
        (h0, m0) :: B.takeWhile (inBucketB st1.bucket_count_ (hash k % st1.bucket_count_)) :=
      List.takeWhile_cons_of_pos hm0in
    have hRC : ((h0, m0) :: B).takeWhile
          (inBucketB st1.bucket_count_ (hash k % st1.bucket_count_)) ++
        ((h0, m0) :: B).dropWhile
          (inBucketB st1.bucket_count_ (hash k % st1.bucket_count_)) =
        (h0, m0) :: B :=
      List.takeWhile_append_dropWhile _ _
    have helems : st1.elements =
        (A ++ ((h0, m0) :: B).takeWhile
          (inBucketB st1.bucket_count_ (hash k % st1.bucket_count_))) ++
        ((h0, m0) :: B).dropWhile
          (inBucketB st1.bucket_count_ (hash k % st1.bucket_count_)) := by
      rw [List.append_assoc, hRC]
      exact hsplitAB
    have hrl : runLen st1.bucket_count_ (hash k % st1.bucket_count_)
        (suffixFrom st1.elements h0) =
        (((h0, m0) :: B).takeWhile
          (inBucketB st1.bucket_count_ (hash k % st1.bucket_count_))).length := by
      rw [hsufSt1]
      rfl
    have hposlen : idxOfId st1.elements h0 +
        runLen st1.bucket_count_ (hash k % st1.bucket_count_)
          (suffixFrom st1.elements h0) =
        (A ++ ((h0, m0) :: B).takeWhile
          (inBucketB st1.bucket_count_ (hash k % st1.bucket_count_))).length := by
      rw [hidx, hrl, List.length_append]
    have htake : st1.elements.take (idxOfId st1.elements h0 +
        runLen st1.bucket_count_ (hash k % st1.bucket_count_)
          (suffixFrom st1.elements h0)) =
        A ++ ((h0, m0) :: B).takeWhile
          (inBucketB st1.bucket_count_ (hash k % st1.bucket_count_)) := by
      rw [hposlen]
      conv in st1.elements => rw [helems]
      exact List.take_left' rfl
    have hdrop : st1.elements.drop (idxOfId st1.elements h0 +
        runLen st1.bucket_count_ (hash k % st1.bucket_count_)
          (suffixFrom st1.elements h0)) =
        ((h0, m0) :: B).dropWhile
          (inBucketB st1.bucket_count_ (hash k % st1.bucket_count_)) := by
      rw [hposlen]
      conv in st1.elements => rw [helems]
      exact List.drop_left' rfl
    refine ⟨_,
      A ++ ((h0, m0) :: B).takeWhile
        (inBucketB st1.bucket_count_ (hash k % st1.bucket_count_)),
      ((h0, m0) :: B).dropWhile
        (inBucketB st1.bucket_count_ (hash k % st1.bucket_count_)),
      rfl, helems, ?_, rfl, rfl, rfl, rfl, rfl, ?_, ?_, ?_, ?_⟩
    · -- the produced backing list
      show st1.elements.take _ ++ (st1.next_id, (⟨k, v, hash k⟩ : HashNode)) ::
          st1.elements.drop _ = _
      rw [htake, hdrop]
    · -- proper heads: the bucket array is untouched and every old node
      -- survives
      intro bq hbq
      show st1.hash_table.getD bq Cur.end_ = Cur.end_ ∨ _
      rcases hheads bq hbq with he | ⟨j, mj, hj, hjm, hjb⟩
      · exact Or.inl he
      · refine Or.inr ⟨j, mj, hj, ?_, hjb⟩
        show (j, mj) ∈ st1.elements.take _ ++
          (st1.next_id, (⟨k, v, hash k⟩ : HashNode)) :: st1.elements.drop _
        rw [htake, hdrop]
        rw [helems] at hjm
        rcases List.mem_append.mp hjm with hx | hy
        · exact List.mem_append_left _ hx
        · exact List.mem_append_right _ (List.mem_cons_of_mem _ hy)
    · -- distinct ids
      show (idsOf _).Nodup
      have hip : idsOf (⟨st1.elements.take (idxOfId st1.elements h0 +
            runLen st1.bucket_count_ (hash k % st1.bucket_count_)
              (suffixFrom st1.elements h0)) ++
            (st1.next_id, ⟨k, v, hash k⟩) ::
            st1.elements.drop (idxOfId st1.elements h0 +
              runLen st1.bucket_count_ (hash k % st1.bucket_count_)
                (suffixFrom st1.elements h0)),
          st1.hash_table, st1.size_ + 1, st1.bucket_count_,
          st1.rehash_threshold_, st1.next_id + 1⟩ : HashTable) =
          (st1.elements.take (idxOfId st1.elements h0 +
            runLen st1.bucket_count_ (hash k % st1.bucket_count_)
              (suffixFrom st1.elements h0))).map Prod.fst ++
          st1.next_id ::
          (st1.elements.drop (idxOfId st1.elements h0 +
            runLen st1.bucket_count_ (hash k % st1.bucket_count_)
              (suffixFrom st1.elements h0))).map Prod.fst := by
        simp [idsOf]
      rw [hip]
      refine List.nodup_middle.mpr (List.nodup_cons.mpr ⟨?_, ?_⟩)
      · intro hc
        rw [← List.map_append] at hc
        obtain ⟨p, hp, hpa⟩ := List.mem_map.mp hc
        have hpm : p ∈ st1.elements := by
          rcases List.mem_append.mp hp with hx | hy
          · exact List.take_subset _ _ hx
          · exact List.drop_subset _ _ hy
        exact absurd (hpa ▸ hfresh p hpm) (lt_irrefl _)
      · rw [← List.map_append, List.take_append_drop]
        exact hids
    · -- freshness
      intro p hp
      show p.1 < st1.next_id + 1
      rcases List.mem_append.mp hp with hx | hy
      · exact lt_trans (hfresh p (List.take_subset _ _ hx)) (Nat.lt_succ_self _)
      · rcases List.mem_cons.mp hy with rfl | hy2
        · exact Nat.lt_succ_self _
        · exact lt_trans (hfresh p (List.drop_subset _ _ hy2)) (Nat.lt_succ_self _)
    · -- the scan walks the old run, misses the key, and stops at the new
      -- node
      show scanFind st1.bucket_count_ (hash k % st1.bucket_count_) k
        (sufOf (⟨st1.elements.take (idxOfId st1.elements h0 +
            runLen st1.bucket_count_ (hash k % st1.bucket_count_)
              (suffixFrom st1.elements h0)) ++
            (st1.next_id, ⟨k, v, hash k⟩) ::
            st1.elements.drop (idxOfId st1.elements h0 +
              runLen st1.bucket_count_ (hash k % st1.bucket_count_)
                (suffixFrom st1.elements h0)),
          st1.hash_table, st1.size_ + 1, st1.bucket_count_,
          st1.rehash_threshold_, st1.next_id + 1⟩ : HashTable)
          (hash k % st1.bucket_count_)) = Cur.node st1.next_id
      rw [sufOf_eq_of_slot_node (show slotOf
        (⟨st1.elements.take (idxOfId st1.elements h0 +
            runLen st1.bucket_count_ (hash k % st1.bucket_count_)
              (suffixFrom st1.elements h0)) ++
            (st1.next_id, ⟨k, v, hash k⟩) ::
            st1.elements.drop (idxOfId st1.elements h0 +
              runLen st1.bucket_count_ (hash k % st1.bucket_count_)
                (suffixFrom st1.elements h0)),
          st1.hash_table, st1.size_ + 1, st1.bucket_count_,
          st1.rehash_threshold_, st1.next_id + 1⟩ : HashTable)
        (hash k % st1.bucket_count_) = Cur.node h0 from hslot)]
      have helems2 : (st1.elements.take (idxOfId st1.elements h0 +
            runLen st1.bucket_count_ (hash k % st1.bucket_count_)
              (suffixFrom st1.elements h0)) ++
          (st1.next_id, (⟨k, v, hash k⟩ : HashNode)) ::
          st1.elements.drop (idxOfId st1.elements h0 +
            runLen st1.bucket_count_ (hash k % st1.bucket_count_)
              (suffixFrom st1.elements h0))) =
          A ++ ((h0, m0) ::
            (B.takeWhile (inBucketB st1.bucket_count_ (hash k % st1.bucket_count_)) ++
             (st1.next_id, (⟨k, v, hash k⟩ : HashNode)) ::
             ((h0, m0) :: B).dropWhile
               (inBucketB st1.bucket_count_ (hash k % st1.bucket_count_)))) := by
        rw [htake, hdrop, hRhead]
        simp
      show scanFind st1.bucket_count_ (hash k % st1.bucket_count_) k
        (suffixFrom (st1.elements.take (idxOfId st1.elements h0 +
            runLen st1.bucket_count_ (hash k % st1.bucket_count_)
              (suffixFrom st1.elements h0)) ++
          (st1.next_id, (⟨k, v, hash k⟩ : HashNode)) ::
          st1.elements.drop (idxOfId st1.elements h0 +
            runLen st1.bucket_count_ (hash k % st1.bucket_count_)
              (suffixFrom st1.elements h0))) h0) = Cur.node st1.next_id
      rw [helems2, suffixFrom_append A h0 m0 _ hA]
      rw [show (h0, m0) ::
          (B.takeWhile (inBucketB st1.bucket_count_ (hash k % st1.bucket_count_)) ++
           (st1.next_id, (⟨k, v, hash k⟩ : HashNode)) ::
           ((h0, m0) :: B).dropWhile
             (inBucketB st1.bucket_count_ (hash k % st1.bucket_count_))) =
          ((h0, m0) ::
            B.takeWhile (inBucketB st1.bucket_count_ (hash k % st1.bucket_count_))) ++
          ((st1.next_id, (⟨k, v, hash k⟩ : HashNode)) ::
           ((h0, m0) :: B).dropWhile
             (inBucketB st1.bucket_count_ (hash k % st1.bucket_count_))) from by simp]
      rw [scanFind_append_miss st1.bucket_count_ (hash k % st1.bucket_count_) k _ _
        ?_ ?_]
      · exact scanFind_cons_hit _ _ _ _ _ _ rfl rfl
      · intro p hp
        rw [← hRhead] at hp
        exact List.mem_takeWhile_imp hp
      · intro p hp
        rw [← hRhead] at hp
        have hpmem : p ∈ st1.elements := by
          rw [hsplitAB]
          exact List.mem_append_right _ ((List.takeWhile_sublist _).mem hp)
        intro hc
        exact hnotin (List.mem_map.mpr ⟨p, hpmem, hc⟩)

/-! ### Structural facts about rehash -/

theorem rehashFold_cons (count : Nat) (tbl : List Cur) (p : Nat × HashNode)
    (rest : List (Nat × HashNode)) :
    rehashFold count tbl (p :: rest) =
      rehashFold count
        (if tbl.getD (p.2.cached_hash % count) Cur.end_ = Cur.end_
         then tbl.set (p.2.cached_hash % count) (Cur.node p.1) else tbl) rest := rfl

theorem rehashFold_length (count : Nat) :
    ∀ (elems : List (Nat × HashNode)) (tbl : List Cur),
    (rehashFold count tbl elems).length = tbl.length := by
  intro elems
  induction elems with
  | nil => intro tbl; rfl
  | cons p rest ih =>
    intro tbl
    rw [rehashFold_cons, ih]
    by_cases h : tbl.getD (p.2.cached_hash % count) Cur.end_ = Cur.end_
    · rw [if_pos h]; simp
    · rw [if_neg h]

/-- The redistribution loop only ever installs heads that are live nodes
of the correct new bucket. -/
theorem rehashFold_heads (count : Nat) (E : List (Nat × HashNode)) :
    ∀ (elems : List (Nat × HashNode)) (tbl : List Cur),
    (∀ p ∈ elems, p ∈ E) → tbl.length = count →
    (∀ b, b < count → tbl.getD b Cur.end_ = Cur.end_ ∨
      ∃ i n, tbl.getD b Cur.end_ = Cur.node i ∧ (i, n) ∈ E ∧
        n.cached_hash % count = b) →
    (∀ b, b < count → (rehashFold count tbl elems).getD b Cur.end_ = Cur.end_ ∨
      ∃ i n, (rehashFold count tbl elems).getD b Cur.end_ = Cur.node i ∧
        (i, n) ∈ E ∧ n.cached_hash % count = b) := by
  intro elems
  induction elems with
  | nil => intro tbl _ _ hprop; exact hprop
  | cons p rest ih =>
    intro tbl hsub hlen hprop
    rw [rehashFold_cons]
    by_cases h : tbl.getD (p.2.cached_hash % count) Cur.end_ = Cur.end_
    · rw [if_pos h]
      refine ih _ (fun q hq => hsub q (by simp [hq])) (by simp [hlen]) ?_
      intro b hb
      by_cases hbb : b = p.2.cached_hash % count
      · subst hbb
        refine Or.inr ⟨p.1, p.2, ?_, hsub p (by simp), rfl⟩
        exact getD_set_self (by rw [hlen]; exact Nat.mod_lt _ (by omega))
      · rw [getD_set_ne (fun hc => hbb hc.symm)]
        exact hprop b hb
    · rw [if_neg h]
      exact ih tbl (fun q hq => hsub q (by simp [hq])) hlen hprop

theorem rehash_noop (st : HashTable) (c0 : Nat)
    (h : max (max c0 MIN_BUCKET_COUNT) ((5 * st.size_ + 3) / 4) = st.bucket_count_) :
    rehash st c0 = st := by
  unfold rehash
  rw [if_pos h]

theorem rehash_rebuild (st : HashTable) (c0 : Nat)
    (h : max (max c0 MIN_BUCKET_COUNT) ((5 * st.size_ + 3) / 4) ≠ st.bucket_count_) :
    (rehash st c0).elements = st.elements ∧
    (rehash st c0).size_ = st.size_ ∧
    (rehash st c0).next_id = st.next_id ∧
    (rehash st c0).bucket_count_ =
      max (max c0 MIN_BUCKET_COUNT) ((5 * st.size_ + 3) / 4) ∧
    (rehash st c0).rehash_threshold_ =
      4 * max (max c0 MIN_BUCKET_COUNT) ((5 * st.size_ + 3) / 4) / 5 ∧
    (rehash st c0).hash_table.length =
      max (max c0 MIN_BUCKET_COUNT) ((5 * st.size_ + 3) / 4) ∧
    HeadsProper (rehash st c0) := by
  have hstep : rehash st c0 =
      { st with
        hash_table := rehashFold (max (max c0 MIN_BUCKET_COUNT) ((5 * st.size_ + 3) / 4))
          (List.replicate (max (max c0 MIN_BUCKET_COUNT) ((5 * st.size_ + 3) / 4)) Cur.end_)
          st.elements
        bucket_count_ := max (max c0 MIN_BUCKET_COUNT) ((5 * st.size_ + 3) / 4)
        rehash_threshold_ :=
          4 * max (max c0 MIN_BUCKET_COUNT) ((5 * st.size_ + 3) / 4) / 5 } := by
    unfold rehash
    rw [if_neg h]
  rw [hstep]
  refine ⟨rfl, rfl, rfl, rfl, rfl, by rw [rehashFold_length]; simp, ?_⟩
  intro b hb
  exact rehashFold_heads _ st.elements st.elements _ (fun p hp => hp)
    (by simp) (fun bq hbq => Or.inl (by simp [List.getD_eq_getElem?_getD, hbq])) b hb

/-! ### The erase path -/

/-- Membership survives removing a different node. -/
theorem mem_of_mem_split {X Y : List (Nat × HashNode)} {i j : Nat}
    {n mj : HashNode} (hp : (j, mj) ∈ X ++ (i, n) :: Y) (hne : j ≠ i) :
    (j, mj) ∈ X ++ Y := by
  rcases List.mem_append.mp hp with hx | hy
  · exact List.mem_append_left _ hx
  · rcases List.mem_cons.mp hy with heq | hy2
    · exact absurd (congrArg Prod.fst heq) hne
    · exact List.mem_append_right _ hy2

/-- Two live pairs with the same id coincide when ids are distinct. -/
theorem eq_of_mem_same_id {l : List (Nat × HashNode)} {i : Nat} {m n : HashNode}
    (hids : (l.map Prod.fst).Nodup) (h1 : (i, m) ∈ l) (h2 : (i, n) ∈ l) :
    m = n := by
  have := List.inj_on_of_nodup_map hids h1 h2 rfl
  exact congrArg Prod.snd this

/-- erase(iterator) on a live node: the node is unlinked, the bucket head
is repaired, and head propriety is preserved. -/
theorem eraseIt_spec (st : HashTable) {i : Nat} {n : HashNode}
    {X Y : List (Nat × HashNode)}
    (hbc : 0 < st.bucket_count_) (hcov : st.bucket_count_ ≤ st.hash_table.length)
    (hheads : HeadsProper st) (hids : (idsOf st).Nodup)
    (hXY : st.elements = X ++ (i, n) :: Y) (hX : ∀ p ∈ X, p.1 ≠ i) :
    ∃ st2, eraseIt st (Cur.node i) = .ok st2 ∧
      st2.elements = X ++ Y ∧
      st2.bucket_count_ = st.bucket_count_ ∧
      st2.hash_table.length = st.hash_table.length ∧
      st2.size_ = st.size_ - 1 ∧
      st2.next_id = st.next_id ∧
      HeadsProper st2 := by
  have hmem : (i, n) ∈ st.elements := by
    rw [hXY]
    exact List.mem_append_right _ (List.mem_cons_self _ _)
  have hlook : lookupNode st.elements i = some n := lookupNode_eq hids hmem
  have hblt : n.cached_hash % st.bucket_count_ < st.bucket_count_ := Nat.mod_lt _ hbc
  have hbltl : n.cached_hash % st.bucket_count_ < st.hash_table.length :=
    lt_of_lt_of_le hblt hcov
  have hget : st.hash_table.get? (n.cached_hash % st.bucket_count_) =
      some (st.hash_table.getD (n.cached_hash % st.bucket_count_) Cur.end_) := by
    rw [List.get?_eq_getElem?, List.getElem?_eq_getElem hbltl,
      List.getD_eq_getElem?_getD, List.getElem?_eq_getElem hbltl]
    rfl
  have hsuf : suffixFrom st.elements i = (i, n) :: Y := by
    rw [hXY]
    exact suffixFrom_append X i n Y hX
  have herase : st.elements.eraseP (fun p => p.1 == i) = X ++ Y := by
    rw [hXY, List.eraseP_append_right _ (fun p hp => by simpa using hX p hp),
      List.eraseP_cons_of_pos (by simp)]
  have h1 : eraseIt st (Cur.node i) =
      (match lookupNode st.elements i with
       | none => Except.error Err.useAfterFree
       | some nn =>
         (match st.hash_table.get? (nn.cached_hash % st.bucket_count_) with
          | none => Except.error Err.oobRead
          | some slot => Except.ok
            { st with
              elements := st.elements.eraseP (fun p => p.1 == i)
              hash_table :=
                (if slot = Cur.node i
                 then st.hash_table.set (nn.cached_hash % st.bucket_count_)
                   (match suffixFrom st.elements i with
                    | _ :: q :: _ =>
                      if q.2.cached_hash % st.bucket_count_ ==
                          nn.cached_hash % st.bucket_count_
                      then Cur.node q.1 else Cur.end_
                    | _ => Cur.end_)
                 else st.hash_table)
              size_ := st.size_ - 1 })) := rfl
  have h2 : eraseIt st (Cur.node i) = Except.ok
      { st with
        elements := st.elements.eraseP (fun p => p.1 == i)
        hash_table :=
          (if st.hash_table.getD (n.cached_hash % st.bucket_count_) Cur.end_ =
              Cur.node i
           then st.hash_table.set (n.cached_hash % st.bucket_count_)
             (match suffixFrom st.elements i with
              | _ :: q :: _ =>
                if q.2.cached_hash % st.bucket_count_ ==
                    n.cached_hash % st.bucket_count_
                then Cur.node q.1 else Cur.end_
              | _ => Cur.end_)
           else st.hash_table)
        size_ := st.size_ - 1 } := by
    rw [h1, hlook]
    show (match st.hash_table.get? (n.cached_hash % st.bucket_count_) with
          | none => Except.error Err.oobRead
          | some slot => Except.ok
            { st with
              elements := st.elements.eraseP (fun p => p.1 == i)
              hash_table :=
                (if slot = Cur.node i
                 then st.hash_table.set (n.cached_hash % st.bucket_count_)
                   (match suffixFrom st.elements i with
                    | _ :: q :: _ =>
                      if q.2.cached_hash % st.bucket_count_ ==
                          n.cached_hash % st.bucket_count_
                      then Cur.node q.1 else Cur.end_
                    | _ => Cur.end_)
                 else st.hash_table)
              size_ := st.size_ - 1 }) = _
    rw [hget]
  refine ⟨_, h2, herase, rfl, ?_, rfl, rfl, ?_⟩
  · by_cases hsl : st.hash_table.getD (n.cached_hash % st.bucket_count_) Cur.end_ =
        Cur.node i
    · rw [if_pos hsl]; simp
    · rw [if_neg hsl]
  · -- heads remain proper
    intro bq hbq
    show (if st.hash_table.getD (n.cached_hash % st.bucket_count_) Cur.end_ =
            Cur.node i
          then st.hash_table.set (n.cached_hash % st.bucket_count_)
            (match suffixFrom st.elements i with
             | _ :: q :: _ =>
               if q.2.cached_hash % st.bucket_count_ ==
                   n.cached_hash % st.bucket_count_
               then Cur.node q.1 else Cur.end_
             | _ => Cur.end_)
          else st.hash_table).getD bq Cur.end_ = Cur.end_ ∨ _
    have hbq' : bq < st.bucket_count_ := hbq
    by_cases hsl : st.hash_table.getD (n.cached_hash % st.bucket_count_) Cur.end_ =
        Cur.node i
    · rw [if_pos hsl]
      by_cases hbb : bq = n.cached_hash % st.bucket_count_
      · subst hbb
        rw [getD_set_self hbltl, hsuf]
        rcases Y with _ | ⟨q, Yt⟩
        · exact Or.inl rfl
        · by_cases hq : (q.2.cached_hash % st.bucket_count_ ==
              n.cached_hash % st.bucket_count_) = true
          · rw [show (match ((i, n) :: q :: Yt : List (Nat × HashNode)) with
                | _ :: q :: _ =>
                  if q.2.cached_hash % st.bucket_count_ ==
                      n.cached_hash % st.bucket_count_
                  then Cur.node q.1 else Cur.end_
                | _ => Cur.end_) =
                if q.2.cached_hash % st.bucket_count_ ==
                    n.cached_hash % st.bucket_count_
                then Cur.node q.1 else Cur.end_ from rfl, if_pos hq]
            refine Or.inr ⟨q.1, q.2, rfl, ?_, by simpa using hq⟩
            show (q.1, q.2) ∈ st.elements.eraseP (fun p => p.1 == i)
            rw [herase]
            exact List.mem_append_right _ (by simp)
          · rw [show (match ((i, n) :: q :: Yt : List (Nat × HashNode)) with
                | _ :: q :: _ =>
                  if q.2.cached_hash % st.bucket_count_ ==
                      n.cached_hash % st.bucket_count_
                  then Cur.node q.1 else Cur.end_
                | _ => Cur.end_) =
                if q.2.cached_hash % st.bucket_count_ ==
                    n.cached_hash % st.bucket_count_
                then Cur.node q.1 else Cur.end_ from rfl, if_neg hq]
            exact Or.inl rfl
      · rw [getD_set_ne (fun hc => hbb hc.symm)]
        rcases hheads bq hbq' with he | ⟨j, mj, hj, hjm, hjb⟩
        · exact Or.inl he
        · refine Or.inr ⟨j, mj, hj, ?_, hjb⟩
          have hji : j ≠ i := by
            intro hc
            subst hc
            have hmjn : mj = n := eq_of_mem_same_id hids hjm hmem
            subst hmjn
            exact hbb hjb.symm
          show (j, mj) ∈ st.elements.eraseP (fun p => p.1 == i)
          rw [herase]
          exact mem_of_mem_split (hXY ▸ hjm) hji
    · rw [if_neg hsl]
      rcases hheads bq hbq' with he | ⟨j, mj, hj, hjm, hjb⟩
      · exact Or.inl he
      · refine Or.inr ⟨j, mj, hj, ?_, hjb⟩
        have hji : j ≠ i := by
          intro hc
          subst hc
          have hmjn : mj = n := eq_of_mem_same_id hids hjm hmem
          subst hmjn
          exact hsl (by rw [hjb]; exact hj)
        show (j, mj) ∈ st.elements.eraseP (fun p => p.1 == i)
        rw [herase]
        exact mem_of_mem_split (hXY ▸ hjm) hji

/-- Claim C3, amended: on a well-formed table (the invariant the
specification asserts) and a key not yet present, emplace inserts and
returns (cursor, true); an immediate find returns that cursor, whose node
carries exactly the inserted value - also when the insertion triggers a
growth rehash; and after erasing the key, find returns end. -/
theorem C3_round_trip (hash : Key → Nat) (st : HashTable) (k : Key) (v : Val)
    (hwf : WF hash st) (hnotin : k ∉ keysOf st) :
    ∃ st' st2,
      emplace hash st k v = .ok (st', Cur.node st.next_id, true) ∧
      find hash st' k = .ok (Cur.node st.next_id) ∧
      lookupNode st'.elements st.next_id = some ⟨k, v, hash k⟩ ∧
      eraseKey hash st' k = .ok st2 ∧
      find hash st2 k = .ok Cur.end_ := by
  obtain ⟨⟨hbc, hcov0, hids, hfresh⟩, hlen, hhash, hkeys, hheadswf, hcontig⟩ := hwf
  have hhp : HeadsProper st :=
    WF.headsProper ⟨⟨hbc, hcov0, hids, hfresh⟩, hlen, hhash, hkeys, hheadswf, hcontig⟩
  have hbundle : ∀ st1 : HashTable,
      st1 = (if st.size_ + 1 > st.rehash_threshold_
             then rehash st (next_prime (st.bucket_count_ * 2)) else st) →
      0 < st1.bucket_count_ ∧ st1.bucket_count_ ≤ st1.hash_table.length ∧
      HeadsProper st1 ∧ (idsOf st1).Nodup ∧
      (∀ p ∈ st1.elements, p.1 < st1.next_id) ∧
      keysOf st1 = keysOf st ∧ st1.next_id = st.next_id := by
    intro st1 hst1
    by_cases htrig : st.size_ + 1 > st.rehash_threshold_
    · rw [if_pos htrig] at hst1
      by_cases hcnt : max (max (next_prime (st.bucket_count_ * 2)) MIN_BUCKET_COUNT)
          ((5 * st.size_ + 3) / 4) = st.bucket_count_
      · rw [rehash_noop st _ hcnt] at hst1
        subst hst1
        exact ⟨hbc, hcov0, hhp, hids, hfresh, rfl, rfl⟩
      · obtain ⟨he, hsz, hni, hbcc, hth, hlenn, hhp1⟩ := rehash_rebuild st _ hcnt
        subst hst1
        have h7 : MIN_BUCKET_COUNT ≤
            max (max (next_prime (st.bucket_count_ * 2)) MIN_BUCKET_COUNT)
              ((5 * st.size_ + 3) / 4) :=
          le_trans (le_max_right _ _) (le_max_left _ _)
        refine ⟨?_, ?_, hhp1, ?_, ?_, ?_, hni⟩
        · rw [hbcc]
          have h70 : (7 : Nat) = MIN_BUCKET_COUNT := rfl
          omega
        · rw [hbcc, hlenn]
        · show (idsOf _).Nodup
          unfold idsOf
          rw [he]
          exact hids
        · intro p hp
          rw [he] at hp
          rw [hni]
          exact hfresh p hp
        · unfold keysOf
          rw [he]
    · rw [if_neg htrig] at hst1
      subst hst1
      exact ⟨hbc, hcov0, hhp, hids, hfresh, rfl, rfl⟩
  rw [emplace_unfold hash st k v hbc (le_of_eq hlen.symm) hhp]
  rcases hscan0 : scanFind st.bucket_count_ (hash k % st.bucket_count_) k
      (sufOf st (hash k % st.bucket_count_)) with _ | j | _
  · -- the duplicate check misses; the insertion phase runs
    obtain ⟨hbc1, hcov1, hhp1, hids1, hfresh1, hkeys1, hni1⟩ := hbundle _ rfl
    have hnotin1 : k ∉ keysOf (if st.size_ + 1 > st.rehash_threshold_
        then rehash st (next_prime (st.bucket_count_ * 2)) else st) := by
      rw [hkeys1]
      exact hnotin
    obtain ⟨st', X, Y, hrun, hXY1, hel', hlen', hbc', hthr', hsize', hnid',
        hhp', hids', hfresh', hscan'⟩ :=
      emplaceNew_spec hash _ k v hbc1 hcov1 hhp1 hids1 hfresh1 hnotin1
    have hfind' : find hash st' k = .ok (Cur.node
        (if st.size_ + 1 > st.rehash_threshold_
         then rehash st (next_prime (st.bucket_count_ * 2)) else st).next_id) := by
      rw [find_eq_scan hash st' k (by rw [hbc']; exact hbc1)
        (by rw [hbc', hlen']; exact hcov1) hhp', hscan']
    have hmem' : ((if st.size_ + 1 > st.rehash_threshold_
        then rehash st (next_prime (st.bucket_count_ * 2)) else st).next_id,
        (⟨k, v, hash k⟩ : HashNode)) ∈ st'.elements := by
      rw [hel']
      exact List.mem_append_right _ (List.mem_cons_self _ _)
    have hlook' := lookupNode_eq hids' hmem'
    have hXne : ∀ p ∈ X, p.1 ≠ (if st.size_ + 1 > st.rehash_threshold_
        then rehash st (next_prime (st.bucket_count_ * 2)) else st).next_id :=
      fun p hp => Nat.ne_of_lt (hfresh1 p (by rw [hXY1]; exact List.mem_append_left _ hp))
    obtain ⟨st2, herun, hel2, hbc2, hlen2, hsz2, hni2, hhp2⟩ :=
      eraseIt_spec st' (by rw [hbc']; exact hbc1) (by rw [hbc', hlen']; exact hcov1)
        hhp' hids' hel' hXne
    have heraseKey : eraseKey hash st' k = .ok st2 := by
      have hstepEK : eraseKey hash st' k = ((find hash st' k) >>= fun c =>
          match c with
          | Cur.end_ => pure st'
          | c => eraseIt st' c) := rfl
      rw [hstepEK, hfind']
      exact herun
    have hknot2 : k ∉ keysOf st2 := by
      unfold keysOf
      rw [hel2]
      intro hc
      obtain ⟨p, hp, hpk⟩ := List.mem_map.mp hc
      exact hnotin (by rw [← hkeys1]
                       exact List.mem_map.mpr ⟨p, by rw [hXY1]; exact hp, hpk⟩)
    have hfind2 : find hash st2 k = .ok Cur.end_ :=
      find_not_mem hash st2 k (by rw [hbc2, hbc']; exact hbc1)
        (by rw [hbc2, hlen2, hbc', hlen']; exact hcov1) hhp2 hknot2
    refine ⟨st', st2, ?_, ?_, ?_, heraseKey, hfind2⟩
    · rw [← hni1]
      exact hrun
    · rw [← hni1]
      exact hfind'
    · rw [← hni1]
      exact hlook'
  · -- a key hit would contradict absence
    obtain ⟨n, hmemS, hk, -⟩ := scanFind_mem _ _ _ _ hscan0
    exact absurd (List.mem_map.mpr ⟨(j, n), sufOf_subset st _ _ hmemS, hk⟩) hnotin
  · exact absurd hscan0 (scanFind_ne_null _ _ _ _)

/-- Witness for the amended C3: inserting key 2 with value 20 into the
one-element table stOne, then erasing it again. -/
theorem C3_round_trip_witness :
    ∃ st' st2,
      emplace idHash stOne 2 20 = .ok (st', Cur.node stOne.next_id, true) ∧
      find idHash st' 2 = .ok (Cur.node stOne.next_id) ∧
      lookupNode st'.elements stOne.next_id = some ⟨2, 20, idHash 2⟩ ∧
      eraseKey idHash st' 2 = .ok st2 ∧
      find idHash st2 2 = .ok Cur.end_ :=
  C3_round_trip idHash stOne 2 20 (by decide) (by decide)

/-- Claim C8, amended: when a table under its load factor (5*size <=
4*bucket_count, threshold semantics of MAX_LOAD_FACTOR = 0.8) with at
least the minimum 7 buckets takes an insertion that triggers growth, the
new bucket count is exactly next_prime(2*bucket_count) - the smallest
(odd) prime not less than twice the old bucket count - and the inserted
element is placed under the new count: find locates it afterwards.  (The
unamended claim is refuted separately: when the size-driven lower bound
ceil(size/0.8) exceeds the doubled-prime proposal, rehash adopts it
verbatim and the resulting bucket count need not be prime.) -/
theorem C8_growth_count_least_prime (hash : Key → Nat) (st : HashTable) (k : Key) (v : Val)
    (hwf : WF hash st) (hnotin : k ∉ keysOf st)
    (hbc7 : 7 ≤ st.bucket_count_)
    (hload : 5 * st.size_ ≤ 4 * st.bucket_count_)
    (htrig : st.size_ + 1 > st.rehash_threshold_) :
    ∃ st',
      emplace hash st k v = .ok (st', Cur.node st.next_id, true) ∧
      st'.bucket_count_ = next_prime (st.bucket_count_ * 2) ∧
      IsLeastPrimeGE (2 * st.bucket_count_) st'.bucket_count_ ∧
      Odd st'.bucket_count_ ∧
      find hash st' k = .ok (Cur.node st.next_id) := by
  obtain ⟨⟨hbc, hcov0, hids, hfresh⟩, hlen, hhash, hkeys, hheadswf, hcontig⟩ := hwf
  have hhp : HeadsProper st :=
    WF.headsProper ⟨⟨hbc, hcov0, hids, hfresh⟩, hlen, hhash, hkeys, hheadswf, hcontig⟩
  obtain ⟨hprime, hlt, hmin⟩ := next_prime_spec (st.bucket_count_ * 2) (by omega)
  have hM : MIN_BUCKET_COUNT = 7 := rfl
  have hminle : MIN_BUCKET_COUNT ≤ next_prime (st.bucket_count_ * 2) := by omega
  have hqle : (5 * st.size_ + 3) / 4 ≤ next_prime (st.bucket_count_ * 2) := by omega
  have hcnt : max (max (next_prime (st.bucket_count_ * 2)) MIN_BUCKET_COUNT)
      ((5 * st.size_ + 3) / 4) = next_prime (st.bucket_count_ * 2) := by
    rw [Nat.max_eq_left hminle, Nat.max_eq_left hqle]
  have hne : max (max (next_prime (st.bucket_count_ * 2)) MIN_BUCKET_COUNT)
      ((5 * st.size_ + 3) / 4) ≠ st.bucket_count_ := by
    rw [hcnt]
    omega
  obtain ⟨he, hsz, hni, hbcc, hth, hlenn, hhp1⟩ :=
    rehash_rebuild st (next_prime (st.bucket_count_ * 2)) hne
  have hbc1 : 0 < (rehash st (next_prime (st.bucket_count_ * 2))).bucket_count_ := by
    rw [hbcc, hcnt]
    omega
  have hcov1 : (rehash st (next_prime (st.bucket_count_ * 2))).bucket_count_ ≤
      (rehash st (next_prime (st.bucket_count_ * 2))).hash_table.length := by
    rw [hbcc, hlenn]
  have hids1 : (idsOf (rehash st (next_prime (st.bucket_count_ * 2)))).Nodup := by
    unfold idsOf
    rw [he]
    exact hids
  have hfresh1 : ∀ p ∈ (rehash st (next_prime (st.bucket_count_ * 2))).elements,
      p.1 < (rehash st (next_prime (st.bucket_count_ * 2))).next_id := by
    intro p hp
    rw [he] at hp
    rw [hni]
    exact hfresh p hp
  have hnotin1 : k ∉ keysOf (rehash st (next_prime (st.bucket_count_ * 2))) := by
    unfold keysOf
    rw [he]
    exact hnotin
  obtain ⟨st', X, Y, hrun, hXY1, hel', hlen', hbc', hthr', hsize', hnid',
      hhp', hids', hfresh', hscan'⟩ :=
    emplaceNew_spec hash (rehash st (next_prime (st.bucket_count_ * 2))) k v
      hbc1 hcov1 hhp1 hids1 hfresh1 hnotin1
  rw [emplace_unfold hash st k v hbc (le_of_eq hlen.symm) hhp]
  rcases hscan0 : scanFind st.bucket_count_ (hash k % st.bucket_count_) k
      (sufOf st (hash k % st.bucket_count_)) with _ | j | _
  · rw [if_pos htrig]
    refine ⟨st', ?_, ?_, ?_, ?_, ?_⟩
    · rw [← hni]
      exact hrun
    · rw [hbc', hbcc, hcnt]
    · rw [hbc', hbcc, hcnt]
      refine ⟨hprime, by omega, ?_⟩
      intro p hp hple
      apply hmin p hp
      rcases Nat.lt_or_ge (st.bucket_count_ * 2) p with h | h
      · exact h
      · have hpe : p = 2 * st.bucket_count_ := by omega
        exfalso
        have h2 : (2 : Nat) ∣ p := ⟨st.bucket_count_, hpe⟩
        rcases hp.eq_one_or_self_of_dvd 2 h2 with h21 | h2p
        · omega
        · omega
    · rw [hbc', hbcc, hcnt]
      exact hprime.odd_of_ne_two (by omega)
    · rw [find_eq_scan hash st' k (by rw [hbc']; exact hbc1)
        (by rw [hbc', hlen']; exact hcov1) hhp', hscan', hni]
  · obtain ⟨n, hmemS, hk, -⟩ := scanFind_mem _ _ _ _ hscan0
    exact absurd (List.mem_map.mpr ⟨(j, n), sufOf_subset st _ _ hmemS, hk⟩) hnotin
  · exact absurd hscan0 (scanFind_ne_null _ _ _ _)

/-- Witness for the amended C8: inserting key 5 into st5 (size 5, bucket
count 7, threshold 5) triggers growth; the new bucket count is
next_prime 14 = 17, the smallest prime not below 14. -/
theorem C8_growth_count_least_prime_witness :
    ∃ st',
      emplace idHash st5 5 5 = .ok (st', Cur.node st5.next_id, true) ∧
      st'.bucket_count_ = next_prime (st5.bucket_count_ * 2) ∧
      IsLeastPrimeGE (2 * st5.bucket_count_) st'.bucket_count_ ∧
      Odd st'.bucket_count_ ∧
      find idHash st' 5 = .ok (Cur.node st5.next_id) :=
  C8_growth_count_least_prime idHash st5 5 5 (by decide) (by decide)
    (by decide) (by decide) (by decide)

/-- Counterexample for C9 as stated over all tables: in the reachable
state stBroken key 17 is present in the backing list, yet at and const
operator[] both fail with KeyNotFound, because the bucket scan cannot
reach a node stranded outside its bucket's recorded run.  The
"fails iff absent" equivalence therefore needs the well-formedness
invariant restored in the amended theorem. -/
theorem C9_cex_present_key_not_found :
    17 ∈ keysOf stBroken ∧
    atKey idHash stBroken 17 = .error .keyNotFound ∧
    getConst idHash stBroken 17 = .error .keyNotFound := by decide

end Renn
